import Mathlib

/-!
# golb: weighted round-robin pool, configuration check and virtual server

A shallow embedding of `roundrobin/rr.go`, `config/config.go` and of the option
setters, the constructor and the request dispatch of
`balancer/virtualserver.go`.

Modelling conventions.

* A `*Peer` held by a pool is modelled by the peer's value at its position in
  the `peers` slice; the pointer returned by `Get`/`EqualGet` is that position.
  The pointers of one pool are taken to be pairwise distinct and non-nil.
* Go's `int` (weights, accumulators) is a 64-bit two's complement integer:
  a field holds an `Int`, and every addition and subtraction of `Get` on
  `total` and `current_weight` is followed by `wrapInt`, the wrap-around to
  `[-2^63, 2^63)`.
* The `uint64` cursor of `EqualGet` is a `Nat` below `2^64`, and
  `atomic.AddUint64` wraps modulo `2^64`.
* Calls are sequential: the locks have no effect on the values computed.
* The pool behind the `Pooler` interface and `url.Parse` are arguments of the
  dispatch; a handler object is identified by the number of handlers
  constructed before it.
-/

namespace roundrobin

/-- The `Peer` struct of `rr.go` (without its mutex). -/
structure Peer where
  addr : String
  weight : Int
  effective_weight : Int
  current_weight : Int
  deriving DecidableEq, Repr

/-- The `Pool` struct of `rr.go` (without its mutex); `current` is a `uint64`. -/
structure Pool where
  peers : List Peer
  current : Nat
  deriving DecidableEq, Repr

/-- The number of values of a `uint64`. -/
def uint64Size : Nat := 2 ^ 64

/-- The largest value of a Go `int` of 64 bits, `math.MaxInt64`. -/
def maxInt : Int := 2 ^ 63 - 1

/-- The value a Go `int` of 64 bits holds after an addition or subtraction
whose exact result is `x`: the two's complement wrap-around to
`[-2^63, 2^63)`. -/
def wrapInt (x : Int) : Int := (x + 2 ^ 63) % 2 ^ 64 - 2 ^ 63

/-- Embeds `func (p *Pool) Size() int`. -/
def Pool.Size (p : Pool) : Nat := p.peers.length

/-- Embeds `func (p *Pool) Add(peer *Peer)`; `none` is the nil pointer. -/
def Pool.Add (p : Pool) (peer : Option Peer) : Pool :=
  match peer with
  | none => p
  | some x => { p with peers := p.peers ++ [x] }

/-- The closure `indexOfPeer` of `Remove`: the index of the first peer whose
address is `a`, or `-1`. The argument `i` is the index of the head of the list. -/
def indexOfPeerFrom (a : String) : List Peer → Int → Int
  | [], _ => -1
  | pr :: rest, i => if pr.addr = a then i else indexOfPeerFrom a rest (i + 1)

/-- The closure `indexOfPeer` of `Remove`, started at index `0`. -/
def indexOfPeer (peers : List Peer) (a : String) : Int :=
  indexOfPeerFrom a peers 0

/-- Embeds `func (p *Pool) Remove(peer *Peer)`; `none` is the nil pointer. -/
def Pool.Remove (p : Pool) (peer : Option Peer) : Pool :=
  match peer with
  | none => p
  | some x =>
    let idx := indexOfPeer p.peers x.addr
    if 0 ≤ idx ∧ idx < (p.Size : Int) then
      { p with peers := p.peers.take idx.toNat ++ p.peers.drop (idx.toNat + 1) }
    else p

/-- The state of the loop of `Get`: the running `total`, the pointer `best`
(a position, with the value it points to) and the peers visited so far, each
after its update. -/
structure GetLoop where
  total : Int
  best : Option (Nat × Peer)
  visited : List Peer
  deriving DecidableEq, Repr

/-- The update of one peer inside the loop of `Get`: `current_weight` grows by
`effective_weight` (a Go `int` addition), and `effective_weight` recovers by
one while below `weight` (which cannot overflow). -/
def Peer.scan (peer : Peer) : Peer :=
  { peer with
    current_weight := wrapInt (peer.current_weight + peer.effective_weight)
    effective_weight :=
      if peer.effective_weight < peer.weight then peer.effective_weight + 1
      else peer.effective_weight }

/-- One iteration of the loop of `Get`. -/
def GetLoop.step (st : GetLoop) (peer : Peer) : GetLoop :=
  let peer1 := peer.scan
  { total := wrapInt (st.total + peer.effective_weight)
    best :=
      match st.best with
      | none => some (st.visited.length, peer1)
      | some (j, b) =>
        if b.current_weight < peer1.current_weight then some (st.visited.length, peer1)
        else some (j, b)
    visited := st.visited ++ [peer1] }

/-- The whole loop of `Get` over the peers. -/
def getLoop (peers : List Peer) : GetLoop :=
  peers.foldl GetLoop.step { total := 0, best := none, visited := [] }

/-- Embeds `func (p *Pool) Get() *Peer`: the returned pointer (a position of the
pool, `none` for nil) and the pool after the call. -/
def Pool.Get (p : Pool) : Option Nat × Pool :=
  let st := getLoop p.peers
  match st.best with
  | none => (none, { p with peers := st.visited })
  | some (j, b) =>
    (some j,
      { p with
        peers := st.visited.set j
          { b with current_weight := wrapInt (b.current_weight - st.total) } })

/-- Embeds `func (p *Pool) EqualGet() *Peer`: the returned pointer (a position of the
pool, `none` for nil) and the pool after the call. -/
def Pool.EqualGet (p : Pool) : Option Nat × Pool :=
  if p.Size ≤ 0 then (none, p)
  else
    let new := (p.current + 1) % uint64Size
    let old := (new + uint64Size - 1) % uint64Size
    let idx := old % p.Size
    (some idx, { p with current := new })

/-- Embeds `func CreatePeer(addr string, weight int) *Peer`. -/
def CreatePeer (addr : String) (weight : Int) : Peer :=
  { addr := addr, weight := weight, effective_weight := weight, current_weight := 0 }

/-- Embeds `func CreatePool(peers []*Peer) *Pool`. -/
def CreatePool (peers : List Peer) : Pool :=
  { peers := peers, current := 0 }

/-- The pool after `k` sequential `Get` calls. -/
def afterGets (p : Pool) : Nat → Pool
  | 0 => p
  | k + 1 => (afterGets p k).Get.2

/-- The pointer returned by the `k`-th sequential `Get` call, counted from `0`. -/
def nthGet (p : Pool) (k : Nat) : Option Nat := (afterGets p k).Get.1

/-- The pool after `k` sequential `EqualGet` calls. -/
def afterEqualGets (p : Pool) : Nat → Pool
  | 0 => p
  | k + 1 => (afterEqualGets p k).EqualGet.2

/-- The pointer returned by the `k`-th sequential `EqualGet` call, counted from `0`. -/
def nthEqualGet (p : Pool) (k : Nat) : Option Nat := (afterEqualGets p k).EqualGet.1

/-- The pointers returned by the `len` sequential `Get` calls number
`start`, ..., `start + len - 1`. -/
def getWindow (p : Pool) (start len : Nat) : List (Option Nat) :=
  (List.range len).map (fun j => nthGet p (start + j))

/-- What the loop of `Get` knows about `best` -/
def BestOK : Option (Nat × Peer) → List Peer → Prop
  | none, visited => visited = []
  | some (j, b), visited =>
    visited[j]? = some b ∧
    (∀ (i : Nat) (x : Peer), visited[i]? = some x → x.current_weight ≤ b.current_weight) ∧
    (∀ (i : Nat) (x : Peer), i < j → visited[i]? = some x → x.current_weight < b.current_weight)

/-- What the loop of `Get` knows about `best` -/
def BestInv (st : GetLoop) : Prop := BestOK st.best st.visited

/-- The `total` computed by the loop of `Get`: the `effective_weight` values of
before the call, added up in Go `int` arithmetic. -/
def Pool.total (p : Pool) : Int :=
  p.peers.foldl (fun t x => wrapInt (t + x.effective_weight)) 0

/-- The value written to the winner of `Get`. -/
def Peer.settle (y : Peer) (total : Int) : Peer :=
  { y.scan with current_weight := wrapInt (y.scan.current_weight - total) }

/-- The fresh pool of two peers with the weight `math.MaxInt64` each, on which
the additions of `Get` overflow. -/
def overflowPool : Pool :=
  CreatePool [CreatePeer "a" maxInt, CreatePeer "b" maxInt]

/-- The peer that `Get` returns, as it is before the call. -/
def Pool.winner (p : Pool) : Option Peer :=
  p.Get.1.bind (fun j => p.peers[j]?)

/-- No addition or subtraction of one `Get` call on the pool overflows:
neither the sums `current_weight + effective_weight`, nor the running
`total`, nor the subtraction of `total` from the accumulator of the peer
returned. -/
def NoOverflow (p : Pool) : Prop :=
  (∀ x ∈ p.peers, wrapInt (x.current_weight + x.effective_weight)
      = x.current_weight + x.effective_weight) ∧
  p.total = (p.peers.map Peer.effective_weight).sum ∧
  (∀ y ∈ p.winner,
    wrapInt (y.current_weight + y.effective_weight
        - (p.peers.map Peer.effective_weight).sum)
      = y.current_weight + y.effective_weight - (p.peers.map Peer.effective_weight).sum)

/-- No `Get` call of the run of sequential `Get` calls from the pool
overflows. -/
def NeverOverflows (p : Pool) : Prop :=
  ∀ t : Nat, NoOverflow (afterGets p t)

/-- The weights are small enough for `Get` never to overflow: the number of
peers times the sum of the weights is at most `math.MaxInt64`. -/
def Bounded (p : Pool) : Prop :=
  (p.peers.length : Int) * (p.peers.map Peer.weight).sum ≤ maxInt

/-- A pool as `CreatePool` makes it from `CreatePeer` peers of non-negative weight -/
def Fresh (p : Pool) : Prop :=
  ∀ x ∈ p.peers, x.effective_weight = x.weight ∧ x.current_weight = 0 ∧ 0 ≤ x.weight

/-- The sum of the configured weights -/
def Pool.weightSum (p : Pool) : Int := (p.peers.map Peer.weight).sum

/-- How often position `i` is returned by the first `t` sequential `Get` calls -/
def selCount (p : Pool) (t i : Nat) : Nat := (getWindow p 0 t).count (some i)

/-- The state of peer `x0` after `t` calls of which `n` returned it -/
def Peer.at (x0 : Peer) (S : Int) (t n : Nat) : Peer :=
  { x0 with current_weight := (t : Int) * x0.weight - S * (n : Int) }

/-- The invariant of a run of `Get` calls from a fresh pool -/
structure RunInv (p0 : Pool) (t : Nat) (q : Pool) : Prop where
  current_eq : q.current = p0.current
  peers_eq : ∀ i : Nat, q.peers[i]? = (p0.peers[i]?).map
    (fun x0 => x0.at p0.weightSum t (selCount p0 t i))
  lower : ∀ (i : Nat) (x : Peer), q.peers[i]? = some x → -p0.weightSum < x.current_weight
  sum_zero : (q.peers.map Peer.current_weight).sum = 0

/-- One call on a pool, for sequences of `Add`, `Remove`, `Get` and `EqualGet`. -/
inductive Op where
  | Add (peer : Option Peer)
  | Remove (peer : Option Peer)
  | Get
  | EqualGet
  deriving DecidableEq, Repr

/-- The pool after one call. -/
def Pool.apply (p : Pool) : Op → Pool
  | Op.Add peer => p.Add peer
  | Op.Remove peer => p.Remove peer
  | Op.Get => p.Get.2
  | Op.EqualGet => p.EqualGet.2

/-- The pool after a sequence of calls, made one after the other. -/
def Pool.run (p : Pool) (ops : List Op) : Pool :=
  ops.foldl Pool.apply p

/-- The sum of the accumulators `current_weight` of a pool. -/
def Pool.currentSum (p : Pool) : Int := (p.peers.map Peer.current_weight).sum

end roundrobin

namespace config

/-- The named errors of `config.go`. -/
inductive Error where
  | ErrVirtualServerDuplicated
  | ErrPoolMemberDuplicated
  | ErrVirtualServerNameEmpty
  | ErrVirtualServerAddressEmpty
  deriving DecidableEq, Repr

/-- The `Server` struct of `config.go`. -/
structure Server where
  Address : String
  Weight : Int
  deriving DecidableEq, Repr

/-- The `VirtualServer` struct of `config.go`. -/
structure VirtualServer where
  Name : String
  Address : String
  ServerName : String
  Protocol : String
  CertFile : String
  KeyFile : String
  LBMethod : String
  Pool : List Server
  deriving DecidableEq, Repr

/-- The `Authentication` struct of `config.go`. -/
structure Authentication where
  Username : String
  Password : String
  deriving DecidableEq, Repr

/-- The `Controller` struct of `config.go`. -/
structure Controller where
  Address : String
  Auth : Authentication
  deriving DecidableEq, Repr

/-- The `ServiceDiscovery` struct of `config.go`. -/
structure ServiceDiscovery where
  Type_ : String
  Cluster : String
  Prefix : String
  CertFile : String
  KeyFile : String
  TrustedCAFile : String
  deriving DecidableEq, Repr

/-- The `Configuration` struct of `config.go`. -/
structure Configuration where
  ServiceDiscovery : ServiceDiscovery
  Controller : Controller
  VServers : List VirtualServer
  deriving DecidableEq, Repr

/-- The inner loop of `check` over the members of one pool; `pset` holds the
keys of the map `pset`. -/
def checkPool : List Server → List String → Option Error
  | [], _ => none
  | p :: rest, pset =>
    if p.Address ∈ pset then some Error.ErrPoolMemberDuplicated
    else checkPool rest (p.Address :: pset)

/-- The outer loop of `check` over the virtual servers; `set` holds the keys
of the map `set`. -/
def checkLoop : List VirtualServer → List String → Option Error
  | [], _ => none
  | vs :: rest, set =>
    if vs.Name = "" then some Error.ErrVirtualServerNameEmpty
    else if vs.Address = "" then some Error.ErrVirtualServerAddressEmpty
    else if vs.Name ∈ set then some Error.ErrVirtualServerDuplicated
    else if vs.Pool.length > 1 then
      match checkPool vs.Pool [] with
      | some e => some e
      | none => checkLoop rest (vs.Name :: set)
    else checkLoop rest (vs.Name :: set)

/-- Embeds `func (c *Configuration) check() error`; `none` is the nil error. -/
def Configuration.check (c : Configuration) : Option Error :=
  checkLoop c.VServers []

/-- What the specification asks of a configuration: names and addresses are
given, names are pairwise distinct, and the member addresses of every pool are
pairwise distinct. -/
def Configuration.Valid (c : Configuration) : Prop :=
  (∀ vs ∈ c.VServers, vs.Name ≠ "" ∧ vs.Address ≠ "") ∧
  (c.VServers.map VirtualServer.Name).Nodup ∧
  (∀ vs ∈ c.VServers, (vs.Pool.map Server.Address).Nodup)

end config

namespace balancer

/-- The constant `LB_ROUNDROBIN`. -/
def LB_ROUNDROBIN : String := "round-robin"

/-- The constant `LB_COSISTENTHASH`. -/
def LB_COSISTENTHASH : String := "consistent-hash"

/-- The constant `PROTO_HTTP`. -/
def PROTO_HTTP : String := "http"

/-- The constant `PROTO_GRPC`. -/
def PROTO_GRPC : String := "grpc"

/-- Modelled from the spec: the error values of package `balancer`, whose
declarations are not among the sources; the specification names host mismatch,
peer not found, internal balancer error, unsupported method and unsupported
protocol. -/
inductive Error where
  | ErrNotSupportedMethod
  | ErrNotSupportedProto
  | ErrHostNotMatch
  | ErrPeerNotFound
  | ErrInternalBalancer
  deriving DecidableEq, Repr

/-- The map `pairs` of `PoolOpt`, as a list of its entries: `pairs[k] = v`
replaces the entry of `k`. -/
def mapSet (m : List (String × Int)) (k : String) (v : Int) : List (String × Int) :=
  (k, v) :: m.filter (fun e => e.1 ≠ k)

/-- Modelled from the spec: the two `Pooler` variants that `PoolOpt` builds.
The constructors `roundrobin.CreatePool(pairs)` and `chash.CreatePool(addrs)`
that it calls are not among the sources; a pool is recorded by its variant and
the argument it was built from. -/
inductive Pooler where
  | roundrobin (pairs : List (String × Int))
  | chash (addrs : List String)
  deriving DecidableEq, Repr

/-- A forwarding handler made by `httputil.NewSingleHostReverseProxy(target)`:
its target, and the identity of the object (the number of handlers constructed
before it). -/
structure ReverseProxy where
  target : String
  id : Nat
  deriving DecidableEq, Repr

/-- The `VirtualServer` struct of `virtualserver.go` (without its locks);
`Pool` is `none` while the interface value is nil, and `ReverseProxy` lists
the entries of the map. -/
structure VirtualServer where
  Name : String
  Address : String
  ServerName : String
  Protocol : String
  LBMethod : String
  Pool : Option Pooler
  ReverseProxy : List (String × ReverseProxy)
  deriving DecidableEq, Repr

/-- Embeds `type VirtualServerOption func(*VirtualServer) error`: the virtual server
after the call, or the error returned. -/
abbrev VirtualServerOption := VirtualServer → Except Error VirtualServer

/-- Embeds `func NameOpt(name string) VirtualServerOption`. -/
def NameOpt (name : String) : VirtualServerOption :=
  fun vs => .ok { vs with Name := name }

/-- Embeds `func AddressOpt(addr string) VirtualServerOption`. -/
def AddressOpt (addr : String) : VirtualServerOption :=
  fun vs => .ok { vs with Address := addr }

/-- Embeds `func ServerNameOpt(serverName string) VirtualServerOption`. -/
def ServerNameOpt (serverName : String) : VirtualServerOption :=
  fun vs =>
    let serverName := if serverName = "" then "localhost" else serverName
    .ok { vs with ServerName := serverName }

/-- Embeds `func ProtocolOpt(proto string) VirtualServerOption`. -/
def ProtocolOpt (proto : String) : VirtualServerOption :=
  fun vs =>
    let proto := if proto = "" then PROTO_HTTP else proto
    .ok { vs with Protocol := proto }

/-- Embeds `func LBMethodOpt(method string) VirtualServerOption`. -/
def LBMethodOpt (method : String) : VirtualServerOption :=
  fun vs =>
    if method ≠ LB_ROUNDROBIN ∧ method ≠ LB_COSISTENTHASH then
      .error Error.ErrNotSupportedMethod
    else .ok { vs with LBMethod := method }

/-- The map `pairs` that `PoolOpt` fills from the peers, in their order. -/
def poolPairs (peers : List config.Server) : List (String × Int) :=
  peers.foldl (fun pairs peer => mapSet pairs peer.Address peer.Weight) []

/-- Embeds `func PoolOpt(method string, peers []config.Server) VirtualServerOption`. -/
def PoolOpt (method : String) (peers : List config.Server) : VirtualServerOption :=
  fun vs =>
    let method := if method = "" then LB_ROUNDROBIN else method
    if method = LB_ROUNDROBIN then
      .ok { vs with Pool := some (Pooler.roundrobin (poolPairs peers)) }
    else if method = LB_COSISTENTHASH then
      .ok { vs with Pool := some (Pooler.chash (peers.map config.Server.Address)) }
    else .error Error.ErrNotSupportedMethod

/-- The value `&VirtualServer{ReverseProxy: make(map...)}` that
`NewVirtualServer` starts from. -/
def emptyVirtualServer : VirtualServer :=
  { Name := "", Address := "", ServerName := "", Protocol := "", LBMethod := "",
    Pool := none, ReverseProxy := [] }

/-- The loop of `NewVirtualServer` over the options; `panic(err)` ends the
construction with `err`. -/
def applyOptions : List VirtualServerOption → VirtualServer → Except Error VirtualServer
  | [], vs => .ok vs
  | opt :: rest, vs =>
    match opt vs with
    | .error err => .error err
    | .ok vs1 => applyOptions rest vs1

/-- Embeds `func NewVirtualServer(opts ...VirtualServerOption) *VirtualServer`: the
virtual server built, or the error it panics with. -/
def NewVirtualServer (opts : List VirtualServerOption) : Except Error VirtualServer :=
  applyOptions opts emptyVirtualServer

/-- The fields of `*http.Request` that `ServeHTTP` reads. -/
structure Request where
  Host : String
  RemoteAddr : String
  deriving DecidableEq, Repr

/-- What `ServeHTTP` does with the response writer: `WriteError(w, e)`, or the
call `rp.ServeHTTP(w, r)` of a handler. -/
inductive Response where
  | error (e : Error)
  | forwarded (rp : ReverseProxy)
  deriving DecidableEq, Repr

/-- Modelled from the spec: the calls of `ServeHTTP` into code that is not
among the sources. `poolGet` is the method `Get` of the `Pooler` held by the
virtual server (a peer address, or the empty string if none is selectable,
and the pool after the call); `urlParse` is `url.Parse` (`none` for an
error). -/
structure Env where
  poolGet : Pooler → String → String × Pooler
  urlParse : String → Option String

/-- The state `ServeHTTP` works on: the virtual server, and the number of
handlers constructed so far. -/
structure Dispatch where
  vs : VirtualServer
  created : Nat
  deriving DecidableEq, Repr

/-- The map read `s.ReverseProxy[peer]`. -/
def cacheGet (m : List (String × ReverseProxy)) (peer : String) : Option ReverseProxy :=
  match m with
  | [] => none
  | (k, rp) :: rest => if k = peer then some rp else cacheGet rest peer

/-- The map write `s.ReverseProxy[peer] = rp`. -/
def cacheSet (m : List (String × ReverseProxy)) (peer : String) (rp : ReverseProxy) :
    List (String × ReverseProxy) :=
  (peer, rp) :: m.filter (fun e => e.1 ≠ peer)

/-- Embeds `func (s *VirtualServer) ServeHTTP(w http.ResponseWriter, r *http.Request)`:
the response and the state after the call; `none` when the call panics on a
nil `Pool`. -/
def ServeHTTP (env : Env) (d : Dispatch) (r : Request) : Option (Response × Dispatch) :=
  if r.Host ≠ d.vs.ServerName then
    some (Response.error Error.ErrHostNotMatch, d)
  else
    match d.vs.Pool with
    | none => none
    | some pool =>
      let peer := (env.poolGet pool r.RemoteAddr).1
      let d1 : Dispatch :=
        { d with vs := { d.vs with Pool := some (env.poolGet pool r.RemoteAddr).2 } }
      if peer = "" then
        some (Response.error Error.ErrPeerNotFound, d1)
      else
        match cacheGet d1.vs.ReverseProxy peer with
        | some rp => some (Response.forwarded rp, d1)
        | none =>
          match env.urlParse ("http://" ++ peer) with
          | none => some (Response.error Error.ErrInternalBalancer, d1)
          | some target =>
            match cacheGet d1.vs.ReverseProxy peer with
            | some rp => some (Response.forwarded rp, d1)
            | none =>
              let rp : ReverseProxy := { target := target, id := d1.created }
              some (Response.forwarded rp,
                { vs := { d1.vs with ReverseProxy := cacheSet d1.vs.ReverseProxy peer rp }
                  created := d1.created + 1 })

/-- The responses and the state after a sequence of `ServeHTTP` calls, made one
after the other. -/
def serveAll (env : Env) : Dispatch → List Request → Option (List Response × Dispatch)
  | d, [] => some ([], d)
  | d, r :: rest =>
    match ServeHTTP env d r with
    | none => none
    | some (resp, d1) =>
      match serveAll env d1 rest with
      | none => none
      | some (resps, d2) => some (resp :: resps, d2)

/-- The peer address that the pool of `d` selects for the request `r`. -/
def routedTo (env : Env) (d : Dispatch) (r : Request) (peer : String) : Prop :=
  ∃ pool : Pooler, d.vs.Pool = some pool ∧ (env.poolGet pool r.RemoteAddr).1 = peer

/-- Every handler in the cache was constructed before the next one to come. -/
def CacheOK (d : Dispatch) : Prop :=
  ∀ (a : String) (rp : ReverseProxy), cacheGet d.vs.ReverseProxy a = some rp → rp.id < d.created

end balancer

namespace roundrobin

theorem wrapInt_of_range (x : Int) (h1 : -(2 ^ 63) ≤ x) (h2 : x ≤ maxInt) : wrapInt x = x := by
  unfold wrapInt
  unfold maxInt at h2
  have e63 : (2 : Int) ^ 63 = 9223372036854775808 := by norm_num
  have e64 : (2 : Int) ^ 64 = 18446744073709551616 := by norm_num
  rw [e63] at h1 h2 ⊢
  rw [e64]
  omega

theorem wrapInt_modEq (x : Int) : Int.ModEq (2 ^ 64) (wrapInt x) x := by
  unfold wrapInt Int.ModEq
  have e63 : (2 : Int) ^ 63 = 9223372036854775808 := by norm_num
  have e64 : (2 : Int) ^ 64 = 18446744073709551616 := by norm_num
  rw [e63, e64]
  omega

theorem BestInv_step (st : GetLoop) (peer : Peer) (h : BestInv st) :
    BestInv (st.step peer) := by
  unfold BestInv at h ⊢
  unfold GetLoop.step
  rcases hb : st.best with _ | ⟨j, b⟩
  · rw [hb] at h
    simp only [BestOK] at h ⊢
    simp only [h, List.length_nil, List.nil_append]
    refine ⟨by simp, ?_, ?_⟩
    · intro i x hx
      rcases i with _ | i
      · simp at hx; rw [← hx]
      · simp at hx
    · intro i x hi; omega
  · rw [hb] at h
    simp only [BestOK] at h ⊢
    obtain ⟨hj, hmax, hlt⟩ := h
    have hjlt : j < st.visited.length := by
      rcases Nat.lt_or_ge j st.visited.length with h1 | h1
      · exact h1
      · rw [List.getElem?_eq_none h1] at hj; cases hj
    have key : ∀ i x, (st.visited ++ [peer.scan])[i]? = some x →
        (i < st.visited.length ∧ st.visited[i]? = some x) ∨
        (i = st.visited.length ∧ x = peer.scan) := by
      intro i x hx
      rcases Nat.lt_or_ge i st.visited.length with h1 | h1
      · left; rw [List.getElem?_append_left h1] at hx; exact ⟨h1, hx⟩
      · right
        rw [List.getElem?_append_right h1] at hx
        rcases hd : i - st.visited.length with _ | d
        · rw [hd] at hx; simp at hx; exact ⟨by omega, hx.symm⟩
        · rw [hd] at hx; simp at hx
    by_cases hc : b.current_weight < peer.scan.current_weight
    · simp only [hc, if_true]
      refine ⟨by simp, ?_, ?_⟩
      · intro i x hx
        rcases key i x hx with ⟨_, h2⟩ | ⟨_, h2⟩
        · have := hmax i x h2; omega
        · rw [h2]
      · intro i x hi hx
        rcases key i x hx with ⟨_, h2⟩ | ⟨h1, _⟩
        · have := hmax i x h2; omega
        · omega
    · simp only [hc, if_false]
      refine ⟨by rw [List.getElem?_append_left hjlt]; exact hj, ?_, ?_⟩
      · intro i x hx
        rcases key i x hx with ⟨_, h2⟩ | ⟨_, h2⟩
        · exact hmax i x h2
        · rw [h2]; omega
      · intro i x hi hx
        rcases key i x hx with ⟨_, h2⟩ | ⟨h1, _⟩
        · exact hlt i x hi h2
        · omega

theorem foldl_step_spec (l : List Peer) (st : GetLoop) (h : BestInv st) :
    BestInv (l.foldl GetLoop.step st) ∧
    (l.foldl GetLoop.step st).visited = st.visited ++ l.map Peer.scan ∧
    (l.foldl GetLoop.step st).total
      = l.foldl (fun t x => wrapInt (t + x.effective_weight)) st.total := by
  induction l generalizing st with
  | nil => simp [h]
  | cons x l ih =>
    obtain ⟨h1, h2, h3⟩ := ih (st.step x) (BestInv_step st x h)
    refine ⟨h1, ?_, ?_⟩
    · rw [List.foldl_cons, h2]; simp [GetLoop.step]
    · rw [List.foldl_cons, h3]; simp [GetLoop.step]

theorem getLoop_spec (peers : List Peer) :
    BestInv (getLoop peers) ∧ (getLoop peers).visited = peers.map Peer.scan ∧
    (getLoop peers).total
      = peers.foldl (fun t x => wrapInt (t + x.effective_weight)) 0 := by
  have h := foldl_step_spec peers { total := 0, best := none, visited := [] } (by simp [BestInv, BestOK])
  simpa [getLoop] using h

theorem Get_spec (p : Pool) (hne : p.peers ≠ []) :
    ∃ (j : Nat) (y : Peer), p.peers[j]? = some y ∧ p.Get.1 = some j ∧
      (∀ (i : Nat) (x : Peer), p.peers[i]? = some x →
        x.scan.current_weight ≤ y.scan.current_weight) ∧
      (∀ (i : Nat) (x : Peer), i < j → p.peers[i]? = some x →
        x.scan.current_weight < y.scan.current_weight) ∧
      p.Get.2 = { p with peers := (p.peers.map Peer.scan).set j (y.settle p.total) } := by
  obtain ⟨hinv, hvis, htot⟩ := getLoop_spec p.peers
  unfold BestInv at hinv
  rcases hb : (getLoop p.peers).best with _ | ⟨j, b⟩
  · rw [hb, hvis] at hinv
    simp only [BestOK] at hinv
    simp at hinv
    exact absurd hinv hne
  · rw [hb, hvis] at hinv
    simp only [BestOK] at hinv
    obtain ⟨hj, hmax, hlt⟩ := hinv
    rw [List.getElem?_map] at hj
    rcases hy : p.peers[j]? with _ | y
    · rw [hy] at hj; cases hj
    · rw [hy] at hj
      simp only [Option.map_some'] at hj
      have hyb : y.scan = b := Option.some.inj hj
      refine ⟨j, y, hy, ?_, ?_, ?_, ?_⟩
      · simp [Pool.Get, hb]
      · intro i x hx
        rw [hyb]
        exact hmax i x.scan (by rw [List.getElem?_map, hx]; rfl)
      · intro i x hi hx
        rw [hyb]
        exact hlt i x.scan hi (by rw [List.getElem?_map, hx]; rfl)
      · simp [Pool.Get, hb, hvis, htot, Peer.settle, Pool.total, hyb]

theorem Get_nil (p : Pool) (h : p.peers = []) : p.Get = (none, p) := by
  cases p with
  | mk peers current =>
    simp only at h
    subst h
    rfl

theorem Get_getElem? (p : Pool) (j : Nat) (y : Peer) (hy : p.peers[j]? = some y)
    (h : p.Get.2 = { p with peers := (p.peers.map Peer.scan).set j (y.settle p.total) })
    (i : Nat) :
    p.Get.2.peers[i]? =
      (p.peers[i]?).map (fun x => if i = j then x.settle p.total else x.scan) := by
  rw [h]
  simp only [List.getElem?_set, List.length_map, List.getElem?_map]
  have hj : j < p.peers.length := by
    rcases Nat.lt_or_ge j p.peers.length with h1 | h1
    · exact h1
    · rw [List.getElem?_eq_none h1] at hy; cases hy
  by_cases hij : j = i
  · subst hij
    simp [hj, hy]
  · have : ¬ i = j := fun e => hij e.symm
    simp [hij, this]

theorem sum_map_set (f : Peer → Int) (l : List Peer) (j : Nat) (y v : Peer)
    (hy : l[j]? = some y) :
    ((l.set j v).map f).sum = (l.map f).sum - f y + f v := by
  induction l generalizing j with
  | nil => simp at hy
  | cons a l ih =>
    rcases j with _ | j
    · simp at hy
      subst hy
      simp; ring
    · simp at hy
      have := ih j hy
      simp only [List.set_cons_succ, List.map_cons, List.sum_cons, this]
      ring

theorem sum_map_scan (l : List Peer)
    (h : ∀ x ∈ l, wrapInt (x.current_weight + x.effective_weight)
      = x.current_weight + x.effective_weight) :
    ((l.map Peer.scan).map Peer.current_weight).sum =
      (l.map Peer.current_weight).sum + (l.map Peer.effective_weight).sum := by
  induction l with
  | nil => simp
  | cons a l ih =>
    have ha := h a (List.mem_cons_self _ _)
    have hl := ih (fun x hx => h x (List.mem_cons_of_mem _ hx))
    simp only [List.map_cons, List.sum_cons, hl]
    simp only [Peer.scan, ha]
    ring

theorem mem_of_getElem? {l : List Peer} {i : Nat} {x : Peer} (h : l[i]? = some x) : x ∈ l :=
  List.mem_iff_getElem?.mpr ⟨i, h⟩

theorem winner_eq (p : Pool) (j : Nat) (y : Peer) (hy : p.peers[j]? = some y)
    (hsel : p.Get.1 = some j) : p.winner = some y := by
  unfold Pool.winner
  rw [hsel]
  simp [hy]

/-- Without overflow one `Get` call leaves the sum of the accumulators as it
was. -/
theorem Get_sum_current_weight (p : Pool) (h : NoOverflow p) :
    (p.Get.2.peers.map Peer.current_weight).sum = (p.peers.map Peer.current_weight).sum := by
  by_cases hne : p.peers = []
  · rw [Get_nil p hne]
  · obtain ⟨j, y, hy, hsel, _, _, hp⟩ := Get_spec p hne
    obtain ⟨h1, h2, h3⟩ := h
    rw [hp]
    have hy1 : (p.peers.map Peer.scan)[j]? = some y.scan := by
      rw [List.getElem?_map, hy]; rfl
    have hw := h3 y (by rw [winner_eq p j y hy hsel]; rfl)
    have hys := h1 y (mem_of_getElem? hy)
    simp only
    rw [sum_map_set Peer.current_weight _ j y.scan _ hy1, sum_map_scan _ h1]
    simp only [Peer.settle, Peer.scan, hys, h2, hw]
    ring

theorem selCount_succ (p : Pool) (t i : Nat) :
    selCount p (t + 1) i = selCount p t i + (if nthGet p t = some i then 1 else 0) := by
  unfold selCount getWindow
  rw [List.range_succ, List.map_append, List.count_append]
  simp only [List.map_cons, List.map_nil, Nat.zero_add]
  by_cases h : nthGet p t = some i
  · simp [h]
  · simp [h, List.count_cons]

theorem total_foldl (l : List Peer) (t : Int) (ht : 0 ≤ t)
    (hew : ∀ x ∈ l, 0 ≤ x.effective_weight)
    (hb : t + (l.map Peer.effective_weight).sum ≤ maxInt) :
    l.foldl (fun t x => wrapInt (t + x.effective_weight)) t
      = t + (l.map Peer.effective_weight).sum := by
  induction l generalizing t with
  | nil => simp
  | cons a l ih =>
    have ha := hew a (List.mem_cons_self _ _)
    have hl : ∀ x ∈ l, 0 ≤ x.effective_weight := fun x hx => hew x (List.mem_cons_of_mem _ hx)
    have hs : 0 ≤ (l.map Peer.effective_weight).sum := List.sum_nonneg (by
      intro v hv
      obtain ⟨x, hx, rfl⟩ := List.mem_map.mp hv
      exact hl x hx)
    simp only [List.map_cons, List.sum_cons] at hb
    have hw : wrapInt (t + a.effective_weight) = t + a.effective_weight :=
      wrapInt_of_range _ (by have : (0 : Int) ≤ 2 ^ 63 := by norm_num
                             omega) (by omega)
    rw [List.foldl_cons, hw, ih (t + a.effective_weight) (by omega) hl (by omega)]
    simp only [List.map_cons, List.sum_cons]
    ring

theorem sum_lower (l : List Int) (S : Int) (h : ∀ y ∈ l, -S < y) :
    -((l.length : Int) * S) ≤ l.sum := by
  induction l with
  | nil => simp
  | cons a l ih =>
    have ha := h a (List.mem_cons_self _ _)
    have hl := ih (fun y hy => h y (List.mem_cons_of_mem _ hy))
    simp only [List.length_cons, List.sum_cons, Nat.cast_add, Nat.cast_one]
    have : ((l.length : Int) + 1) * S = (l.length : Int) * S + S := by ring
    omega

theorem le_of_sum_zero (l : List Int) (S : Int) (h : ∀ y ∈ l, -S < y) (h0 : l.sum = 0)
    (x : Int) (hx : x ∈ l) : x ≤ ((l.length : Int) - 1) * S := by
  obtain ⟨s, t, rfl⟩ := List.append_of_mem hx
  have hs := sum_lower s S (fun y hy => h y (List.mem_append_left _ hy))
  have ht := sum_lower t S (fun y hy =>
    h y (List.mem_append_right _ (List.mem_cons_of_mem _ hy)))
  simp only [List.sum_append, List.sum_cons] at h0
  simp only [List.length_append, List.length_cons, Nat.cast_add, Nat.cast_one]
  have : ((s.length : Int) + ((t.length : Int) + 1) - 1) * S
      = (s.length : Int) * S + (t.length : Int) * S := by ring
  omega

theorem le_sum_of_nonneg (l : List Int) (h : ∀ y ∈ l, 0 ≤ y) (x : Int) (hx : x ∈ l) :
    x ≤ l.sum := by
  obtain ⟨s, t, rfl⟩ := List.append_of_mem hx
  have hs : 0 ≤ s.sum := List.sum_nonneg (fun y hy => h y (List.mem_append_left _ hy))
  have ht : 0 ≤ t.sum := List.sum_nonneg (fun y hy =>
    h y (List.mem_append_right _ (List.mem_cons_of_mem _ hy)))
  simp only [List.sum_append, List.sum_cons]
  omega

theorem RunInv.ew_eq {p0 q : Pool} {t : Nat} (hf : Fresh p0) (h : RunInv p0 t q) :
    q.peers.map Peer.effective_weight = p0.peers.map Peer.weight := by
  apply List.ext_getElem?
  intro i
  rw [List.getElem?_map, List.getElem?_map, h.peers_eq i]
  rcases hx : p0.peers[i]? with _ | x0
  · rfl
  · simp [Peer.at, (hf x0 (mem_of_getElem? hx)).1]

theorem RunInv.length_eq {p0 q : Pool} {t : Nat} (hf : Fresh p0) (h : RunInv p0 t q) :
    q.peers.length = p0.peers.length := by
  have := congrArg List.length (h.ew_eq hf)
  simpa using this

theorem RunInv.static {p0 q : Pool} {t : Nat} (hf : Fresh p0) (h : RunInv p0 t q)
    (x : Peer) (hx : x ∈ q.peers) : x.effective_weight = x.weight ∧ 0 ≤ x.weight := by
  obtain ⟨i, hi⟩ := List.mem_iff_getElem?.mp hx
  rw [h.peers_eq i] at hi
  rcases hx0 : p0.peers[i]? with _ | x0
  · rw [hx0] at hi; cases hi
  · rw [hx0] at hi
    have hfx := hf x0 (mem_of_getElem? hx0)
    simp only [Option.map_some', Option.some.injEq] at hi
    rw [← hi]
    exact ⟨hfx.1, hfx.2.2⟩

/-- In a run from a fresh pool with bounded weights the sums
`current_weight + effective_weight` and the `total` of the next `Get` do not
overflow. -/
theorem RunInv.noOverflow {p0 q : Pool} {t : Nat} (hf : Fresh p0) (hS : 0 < p0.weightSum)
    (hB : Bounded p0) (h : RunInv p0 t q) :
    (∀ x ∈ q.peers, -p0.weightSum < x.current_weight + x.effective_weight ∧
      x.current_weight + x.effective_weight ≤ maxInt ∧
      wrapInt (x.current_weight + x.effective_weight)
        = x.current_weight + x.effective_weight) ∧
    q.total = p0.weightSum ∧ (q.peers.map Peer.effective_weight).sum = p0.weightSum ∧
    p0.weightSum ≤ maxInt := by
  have hew := h.ew_eq hf
  have hlen := h.length_eq hf
  have hsum : (q.peers.map Peer.effective_weight).sum = p0.weightSum := by
    rw [hew]; rfl
  have hB1 : (q.peers.length : Int) * p0.weightSum ≤ maxInt := by
    rw [hlen]; exact hB
  have hSle : ∀ x ∈ q.peers, p0.weightSum ≤ maxInt ∧
      ((q.peers.length : Int) - 1) * p0.weightSum + p0.weightSum ≤ maxInt := by
    intro x hx
    have hlen1 : (1 : Int) ≤ (q.peers.length : Int) := by
      have := List.length_pos_of_mem hx
      omega
    have e : ((q.peers.length : Int) - 1) * p0.weightSum + p0.weightSum
        = (q.peers.length : Int) * p0.weightSum := by ring
    have h2 : 0 ≤ ((q.peers.length : Int) - 1) * p0.weightSum :=
      mul_nonneg (by omega) hS.le
    constructor
    · omega
    · omega
  have e63 : (2 : Int) ^ 63 = maxInt + 1 := by unfold maxInt; ring
  refine ⟨?_, ?_, hsum, ?_⟩
  · intro x hx
    obtain ⟨hSm, hnS⟩ := hSle x hx
    obtain ⟨i, hi⟩ := List.mem_iff_getElem?.mp hx
    have hlow := h.lower i x hi
    have hst := h.static hf x hx
    have hup := le_of_sum_zero (q.peers.map Peer.current_weight) p0.weightSum
      (by
        intro v hv
        obtain ⟨z, hz, rfl⟩ := List.mem_map.mp hv
        obtain ⟨k, hk⟩ := List.mem_iff_getElem?.mp hz
        exact h.lower k z hk)
      h.sum_zero x.current_weight (List.mem_map.mpr ⟨x, hx, rfl⟩)
    rw [List.length_map] at hup
    have hwS : x.effective_weight ≤ p0.weightSum := by
      rw [← hsum]
      apply le_sum_of_nonneg
      · intro v hv
        obtain ⟨z, hz, rfl⟩ := List.mem_map.mp hv
        have := h.static hf z hz
        omega
      · exact List.mem_map.mpr ⟨x, hx, rfl⟩
    have h1 : -p0.weightSum < x.current_weight + x.effective_weight := by omega
    have h2 : x.current_weight + x.effective_weight ≤ maxInt := by omega
    exact ⟨h1, h2, wrapInt_of_range _ (by omega) h2⟩
  · unfold Pool.total
    rw [total_foldl q.peers 0 (le_refl 0)
      (fun x hx => by have := h.static hf x hx; omega) (by
        rw [hsum]
        rcases hq : q.peers with _ | ⟨a, l⟩
        · have h0 : p0.weightSum = 0 := by
            rw [← hsum, hq]; rfl
          rw [h0]; unfold maxInt; norm_num
        · have := (hSle a (by rw [hq]; exact List.mem_cons_self _ _)).1
          omega), hsum]
    ring
  · rcases hq : q.peers with _ | ⟨a, l⟩
    · have h0 : p0.weightSum = 0 := by
        rw [← hsum, hq]; rfl
      omega
    · exact (hSle a (by rw [hq]; exact List.mem_cons_self _ _)).1

theorem RunInv.zero (p0 : Pool) (hf : Fresh p0) (hS : 0 < p0.weightSum) :
    RunInv p0 0 p0 := by
  refine ⟨rfl, ?_, ?_, ?_⟩
  · intro i
    rcases hx : p0.peers[i]? with _ | x0
    · rfl
    · have := (hf x0 (mem_of_getElem? hx)).2.1
      cases x0
      simp_all [Peer.at, selCount, getWindow]
  · intro i x hx
    rw [(hf x (mem_of_getElem? hx)).2.1]
    omega
  · have : ∀ l : List Peer, (∀ x ∈ l, x.current_weight = 0) →
        (l.map Peer.current_weight).sum = 0 := by
      intro l
      induction l with
      | nil => simp
      | cons a l ih =>
        intro h
        simp [h a (List.mem_cons_self _ _), ih (fun x hx => h x (List.mem_cons_of_mem _ hx))]
    exact this _ (fun x hx => (hf x hx).2.1)

theorem sum_map_nonpos (f : Peer → Int) (l : List Peer) (h : ∀ x ∈ l, f x ≤ 0) :
    (l.map f).sum ≤ 0 := by
  induction l with
  | nil => simp
  | cons a l ih =>
    have h1 := h a (List.mem_cons_self _ _)
    have h2 := ih (fun x hx => h x (List.mem_cons_of_mem _ hx))
    simp only [List.map_cons, List.sum_cons]
    omega

theorem weightSum_pos_ne_nil (p : Pool) (hS : 0 < p.weightSum) : p.peers ≠ [] := by
  intro h
  unfold Pool.weightSum at hS
  rw [h] at hS
  simp at hS

theorem RunInv.ne_nil {p0 q : Pool} {t : Nat} (hS : 0 < p0.weightSum) (h : RunInv p0 t q) :
    q.peers ≠ [] := by
  have h0 := weightSum_pos_ne_nil p0 hS
  intro hq
  have h1 := h.peers_eq 0
  rw [hq] at h1
  rcases hp : p0.peers with _ | ⟨a, l⟩
  · exact h0 hp
  · rw [hp] at h1
    simp at h1

/-- The winner of a `Get` call in a run from a fresh pool has a positive
accumulator after the scan, when the sums of the scan do not overflow. -/
theorem RunInv.winner_pos {p0 q : Pool} {t : Nat} (hf : Fresh p0) (hS : 0 < p0.weightSum)
    (h : RunInv p0 t q)
    (hscan : ∀ x ∈ q.peers, wrapInt (x.current_weight + x.effective_weight)
      = x.current_weight + x.effective_weight)
    (y : Peer) (hy : y ∈ q.peers)
    (hmax : ∀ (i : Nat) (x : Peer), q.peers[i]? = some x →
      x.scan.current_weight ≤ y.scan.current_weight) :
    0 < y.current_weight + y.effective_weight := by
  have hsum : (q.peers.map Peer.effective_weight).sum = p0.weightSum := by
    rw [h.ew_eq hf]; rfl
  have hsc : ∀ x ∈ q.peers, x.scan.current_weight
      = x.current_weight + x.effective_weight := fun x hx => hscan x hx
  by_contra hle
  have h1 : ∀ x ∈ q.peers.map Peer.scan, x.current_weight ≤ 0 := by
    intro x hx
    obtain ⟨x1, hx1, rfl⟩ := List.mem_map.mp hx
    obtain ⟨i, hi⟩ := List.mem_iff_getElem?.mp hx1
    have := hmax i x1 hi
    rw [hsc y hy] at this
    omega
  have h2 := sum_map_nonpos Peer.current_weight _ h1
  rw [sum_map_scan _ hscan, h.sum_zero, hsum] at h2
  omega

/-- In a run from a fresh pool with bounded weights the next `Get` does not
overflow. -/
theorem RunInv.noOverflow_next {p0 q : Pool} {t : Nat} (hf : Fresh p0)
    (hS : 0 < p0.weightSum) (hB : Bounded p0) (h : RunInv p0 t q) : NoOverflow q := by
  obtain ⟨hno, hT, hsum, hSm⟩ := h.noOverflow hf hS hB
  have hscan : ∀ x ∈ q.peers, wrapInt (x.current_weight + x.effective_weight)
      = x.current_weight + x.effective_weight := fun x hx => (hno x hx).2.2
  refine ⟨hscan, by rw [hT, hsum], ?_⟩
  intro y hyw
  have hne := h.ne_nil hS
  obtain ⟨j, y1, hy1, hsel, hmax, _, _⟩ := Get_spec q hne
  rw [winner_eq q j y1 hy1 hsel] at hyw
  have hyy : y1 = y := Option.some.inj hyw
  subst hyy
  have hym := mem_of_getElem? hy1
  have hpos := h.winner_pos hf hS hscan y1 hym hmax
  have hup := (hno y1 hym).2.1
  have e63 : (2 : Int) ^ 63 = maxInt + 1 := by unfold maxInt; ring
  rw [hsum]
  exact wrapInt_of_range _ (by omega) (by omega)

theorem scan_static (x : Peer) (hst : x.effective_weight = x.weight)
    (hw : wrapInt (x.current_weight + x.effective_weight)
      = x.current_weight + x.effective_weight) :
    x.scan = { x with current_weight := x.current_weight + x.weight } := by
  cases x
  simp only at hst hw
  subst hst
  simp only [Peer.scan, hw, lt_irrefl, if_false]

theorem settle_static (x : Peer) (T : Int) (hst : x.effective_weight = x.weight)
    (hw : wrapInt (x.current_weight + x.effective_weight)
      = x.current_weight + x.effective_weight)
    (hw2 : wrapInt (x.current_weight + x.effective_weight - T)
      = x.current_weight + x.effective_weight - T) :
    x.settle T = { x with current_weight := x.current_weight + x.weight - T } := by
  cases x
  simp only at hst hw hw2
  subst hst
  simp only [Peer.settle, Peer.scan, hw, hw2, lt_irrefl, if_false]

theorem RunInv.step {p0 : Pool} (hf : Fresh p0) (hS : 0 < p0.weightSum)
    (t : Nat) (h : RunInv p0 t (afterGets p0 t)) (hNO : NoOverflow (afterGets p0 t)) :
    RunInv p0 (t + 1) (afterGets p0 (t + 1)) := by
  have hne := h.ne_nil hS
  obtain ⟨j, y, hy, hsel, hmax, _, hq⟩ := Get_spec (afterGets p0 t) hne
  have hpt := Get_getElem? (afterGets p0 t) j y hy hq
  have hscan := hNO.1
  have hsum : ((afterGets p0 t).peers.map Peer.effective_weight).sum = p0.weightSum := by
    rw [h.ew_eq hf]; rfl
  have hT : (afterGets p0 t).total = p0.weightSum := by rw [hNO.2.1, hsum]
  have hwin : wrapInt (y.current_weight + y.effective_weight - p0.weightSum)
      = y.current_weight + y.effective_weight - p0.weightSum := by
    have := hNO.2.2 y (winner_eq _ j y hy hsel)
    rw [hsum] at this
    exact this
  have hpos := h.winner_pos hf hS hscan y (mem_of_getElem? hy) hmax
  have hnth : nthGet p0 t = some j := hsel
  have hstep : ∀ (i : Nat) (x : Peer), (afterGets p0 t).peers[i]? = some x →
      (if i = j then x.settle (afterGets p0 t).total else x.scan)
        = { x with current_weight := x.current_weight + x.weight
              - (if i = j then p0.weightSum else 0) } := by
    intro i x hx
    have hxm := mem_of_getElem? hx
    have hst := h.static hf x hxm
    have hxs := hscan x hxm
    by_cases hij : i = j
    · have hyx : y = x := by
        rw [hij, hy] at hx
        exact Option.some.inj hx
      rw [if_pos hij, if_pos hij, hT]
      rw [hyx] at hwin
      exact settle_static x _ hst.1 hxs hwin
    · rw [if_neg hij, if_neg hij, sub_zero]
      exact scan_static x hst.1 hxs
  refine ⟨?_, ?_, ?_, ?_⟩
  · show (afterGets p0 t).Get.2.current = p0.current
    rw [hq]; exact h.current_eq
  · intro i
    show (afterGets p0 t).Get.2.peers[i]? = _
    rw [hpt i]
    rcases hxq : (afterGets p0 t).peers[i]? with _ | xq
    · have := h.peers_eq i
      rw [hxq] at this
      rcases hx0 : p0.peers[i]? with _ | x0
      · rfl
      · rw [hx0] at this; cases this
    · simp only [Option.map_some']
      rw [hstep i xq hxq]
      have hpe := h.peers_eq i
      rw [hxq] at hpe
      rcases hx0 : p0.peers[i]? with _ | x0
      · rw [hx0] at hpe; cases hpe
      · rw [hx0] at hpe
        simp only [Option.map_some', Option.some.injEq] at hpe
        rw [hpe, selCount_succ, hnth]
        simp only [Option.map_some', Option.some.injEq]
        cases x0
        by_cases hij : i = j
        · subst hij
          simp [Peer.at]
          ring
        · have hji : ¬ j = i := fun e => hij e.symm
          simp [Peer.at, hij, hji]
          ring
  · intro i x hx
    have hx1 : (afterGets p0 t).Get.2.peers[i]? = some x := hx
    rw [hpt i] at hx1
    rcases hxq : (afterGets p0 t).peers[i]? with _ | xq
    · rw [hxq] at hx1; cases hx1
    · rw [hxq] at hx1
      simp only [Option.map_some', Option.some.injEq] at hx1
      rw [hstep i xq hxq] at hx1
      have hlow := h.lower i xq hxq
      have hst := h.static hf xq (mem_of_getElem? hxq)
      rw [← hx1]
      simp only
      by_cases hij : i = j
      · subst hij
        rw [hy] at hxq
        have hyx : y = xq := Option.some.inj hxq
        subst hyx
        rw [if_pos rfl]
        omega
      · rw [if_neg hij]
        omega
  · show ((afterGets p0 t).Get.2.peers.map Peer.current_weight).sum = 0
    rw [Get_sum_current_weight _ hNO]
    exact h.sum_zero

theorem RunInv.all {p0 : Pool} (hf : Fresh p0) (hS : 0 < p0.weightSum)
    (hno : NeverOverflows p0) (t : Nat) : RunInv p0 t (afterGets p0 t) := by
  induction t with
  | zero => exact RunInv.zero p0 hf hS
  | succ t ih => exact RunInv.step hf hS t ih (hno t)

/-- With bounded weights no `Get` call of a run from a fresh pool overflows. -/
theorem neverOverflows_of_bounded {p0 : Pool} (hf : Fresh p0) (hS : 0 < p0.weightSum)
    (hB : Bounded p0) : NeverOverflows p0 := by
  have key : ∀ t : Nat, RunInv p0 t (afterGets p0 t) := by
    intro t
    induction t with
    | zero => exact RunInv.zero p0 hf hS
    | succ t ih => exact RunInv.step hf hS t ih (ih.noOverflow_next hf hS hB)
  intro t
  exact (key t).noOverflow_next hf hS hB

theorem sum_map_zero_of_nonneg (f : Peer → Int) (l : List Peer) (h : ∀ x ∈ l, 0 ≤ f x)
    (hs : (l.map f).sum = 0) : ∀ x ∈ l, f x = 0 := by
  induction l with
  | nil => simp
  | cons a l ih =>
    have h1 := h a (List.mem_cons_self _ _)
    have h2 : ∀ x ∈ l, 0 ≤ f x := fun x hx => h x (List.mem_cons_of_mem _ hx)
    have h3 : 0 ≤ (l.map f).sum := List.sum_nonneg (by
      intro v hv
      obtain ⟨x, hx, rfl⟩ := List.mem_map.mp hv
      exact h2 x hx)
    simp only [List.map_cons, List.sum_cons] at hs
    intro x hx
    rcases List.mem_cons.mp hx with rfl | hx
    · omega
    · exact ih h2 (by omega) x hx

/-- After `sum of weights` calls every accumulator is `0` again and every peer
has been returned as often as its weight says -/
theorem full_round {p0 : Pool} (hf : Fresh p0) (hS : 0 < p0.weightSum)
    (hno : NeverOverflows p0)
    (i : Nat) (x0 : Peer) (hx0 : p0.peers[i]? = some x0) :
    (selCount p0 p0.weightSum.toNat i : Int) = x0.weight ∧
    (afterGets p0 p0.weightSum.toNat).peers[i]? = some x0 := by
  have h := RunInv.all hf hS hno p0.weightSum.toNat
  have hN : ((p0.weightSum.toNat : Nat) : Int) = p0.weightSum := Int.toNat_of_nonneg hS.le
  have hcw : ∀ (k : Nat) (x : Peer), (afterGets p0 p0.weightSum.toNat).peers[k]? = some x →
      ∃ z : Peer, p0.peers[k]? = some z ∧
        x = z.at p0.weightSum p0.weightSum.toNat (selCount p0 p0.weightSum.toNat k) ∧
        x.current_weight = p0.weightSum * (z.weight - selCount p0 p0.weightSum.toNat k) := by
    intro k x hx
    rw [h.peers_eq k] at hx
    rcases hz : p0.peers[k]? with _ | z
    · rw [hz] at hx; cases hx
    · rw [hz] at hx
      simp only [Option.map_some', Option.some.injEq] at hx
      refine ⟨z, rfl, hx.symm, ?_⟩
      rw [← hx]
      simp only [Peer.at, hN]
      ring
  have hnn : ∀ x ∈ (afterGets p0 p0.weightSum.toNat).peers, 0 ≤ x.current_weight := by
    intro x hx
    obtain ⟨k, hk⟩ := List.mem_iff_getElem?.mp hx
    obtain ⟨z, _, _, hval⟩ := hcw k x hk
    have hl := h.lower k x hk
    rw [hval] at hl ⊢
    have h1 : 0 < p0.weightSum * (z.weight - (selCount p0 p0.weightSum.toNat k : Int) + 1) := by
      have : p0.weightSum * (z.weight - (selCount p0 p0.weightSum.toNat k : Int) + 1)
          = p0.weightSum * (z.weight - (selCount p0 p0.weightSum.toNat k : Int))
            + p0.weightSum := by ring
      omega
    have h2 := (mul_pos_iff_of_pos_left hS).mp h1
    exact mul_nonneg hS.le (by omega)
  have hzero := sum_map_zero_of_nonneg Peer.current_weight _ hnn h.sum_zero
  have hq := h.peers_eq i
  rw [hx0] at hq
  simp only [Option.map_some'] at hq
  obtain ⟨z, hz, hxz, hval⟩ := hcw i _ hq
  rw [hx0] at hz
  have hzx : x0 = z := Option.some.inj hz
  subst hzx
  have h0 := hzero _ (mem_of_getElem? hq)
  rw [hval] at h0
  have hw : x0.weight - (selCount p0 p0.weightSum.toNat i : Int) = 0 := by
    rcases mul_eq_zero.mp h0 with h1 | h1
    · omega
    · exact h1
  refine ⟨by omega, ?_⟩
  rw [hq]
  have hc0 := (hf x0 (mem_of_getElem? hx0)).2.1
  have hcur : (x0.at p0.weightSum p0.weightSum.toNat
      (selCount p0 p0.weightSum.toNat i)).current_weight = 0 := hzero _ (mem_of_getElem? hq)
  cases x0
  simp only [Peer.at] at hcur ⊢
  simp only at hc0
  rw [hcur, hc0]

theorem afterGets_period {p0 : Pool} (hf : Fresh p0) (hS : 0 < p0.weightSum)
    (hno : NeverOverflows p0) :
    afterGets p0 p0.weightSum.toNat = p0 := by
  have h := RunInv.all hf hS hno p0.weightSum.toNat
  have hp : (afterGets p0 p0.weightSum.toNat).peers = p0.peers := by
    apply List.ext_getElem?
    intro i
    rcases hx0 : p0.peers[i]? with _ | x0
    · rw [h.peers_eq i, hx0]; rfl
    · exact (full_round hf hS hno i x0 hx0).2
  have hc := h.current_eq
  cases hq : afterGets p0 p0.weightSum.toNat with
  | mk peers current =>
    rw [hq] at hp hc
    cases p0
    simp only at hp hc
    rw [hp, hc]

theorem afterGets_add (p : Pool) (a b : Nat) :
    afterGets p (a + b) = afterGets (afterGets p a) b := by
  induction b with
  | zero => rfl
  | succ b ih =>
    show (afterGets p (a + b)).Get.2 = (afterGets (afterGets p a) b).Get.2
    rw [ih]

theorem nthGet_period {p0 : Pool} (hf : Fresh p0) (hS : 0 < p0.weightSum)
    (hno : NeverOverflows p0) (k : Nat) :
    nthGet p0 (k + p0.weightSum.toNat) = nthGet p0 k := by
  unfold nthGet
  rw [Nat.add_comm, afterGets_add, afterGets_period hf hS hno]

theorem getWindow_succ_left (p : Pool) (k n : Nat) :
    getWindow p k (n + 1) = nthGet p k :: getWindow p (k + 1) n := by
  unfold getWindow
  rw [List.range_succ_eq_map]
  simp only [List.map_cons, List.map_map, Nat.add_zero]
  congr 1
  apply List.map_congr_left
  intro j _
  simp only [Function.comp]
  congr 1
  omega

theorem getWindow_succ_right (p : Pool) (k n : Nat) :
    getWindow p k (n + 1) = getWindow p k n ++ [nthGet p (k + n)] := by
  unfold getWindow
  rw [List.range_succ, List.map_append]
  rfl

theorem count_window_shift {p0 : Pool} (hf : Fresh p0) (hS : 0 < p0.weightSum)
    (hno : NeverOverflows p0) (k i : Nat) :
    (getWindow p0 k p0.weightSum.toNat).count (some i) = selCount p0 p0.weightSum.toNat i := by
  induction k with
  | zero => rfl
  | succ k ih =>
    have h1 := congrArg (List.count (some i)) (getWindow_succ_left p0 k p0.weightSum.toNat)
    have h2 := congrArg (List.count (some i)) (getWindow_succ_right p0 k p0.weightSum.toNat)
    rw [h2, List.count_append, nthGet_period hf hS hno, List.count_cons, ih] at h1
    simp only [List.count_cons, List.count_nil] at h1
    omega

theorem Fresh_CreatePool (specs : List (String × Int)) (hw : ∀ s ∈ specs, 0 ≤ s.2) :
    Fresh (CreatePool (specs.map (fun s => CreatePeer s.1 s.2))) := by
  intro x hx
  obtain ⟨s, hs, rfl⟩ := List.mem_map.mp hx
  exact ⟨rfl, rfl, hw s hs⟩

theorem weightSum_CreatePool (specs : List (String × Int)) :
    (CreatePool (specs.map (fun s => CreatePeer s.1 s.2))).weightSum
      = (specs.map Prod.snd).sum := by
  unfold Pool.weightSum CreatePool
  simp only [List.map_map]
  rfl

theorem Bounded_CreatePool (specs : List (String × Int))
    (hB : (specs.length : Int) * (specs.map Prod.snd).sum ≤ maxInt) :
    Bounded (CreatePool (specs.map (fun s => CreatePeer s.1 s.2))) := by
  unfold Bounded CreatePool
  simp only [List.length_map, List.map_map]
  exact hB

theorem window_count_shift (p : Pool) (N i : Nat) :
    (getWindow p 1 N).count (some i) + (if nthGet p 0 = some i then 1 else 0)
      = (getWindow p 0 N).count (some i) + (if nthGet p N = some i then 1 else 0) := by
  have hL : (getWindow p 0 (N + 1)).count (some i)
      = (getWindow p 1 N).count (some i) + (if nthGet p 0 = some i then 1 else 0) := by
    rw [getWindow_succ_left, List.count_cons]
    simp only [Nat.zero_add, beq_iff_eq]
  have hR : (getWindow p 0 (N + 1)).count (some i)
      = (getWindow p 0 N).count (some i) + (if nthGet p N = some i then 1 else 0) := by
    rw [getWindow_succ_right, List.count_append, List.count_cons, List.count_nil]
    simp only [Nat.zero_add, beq_iff_eq]
  rw [← hL, hR]

theorem overflowPool_run (k : Nat) :
    afterGets overflowPool (2 * k + 1)
      = ⟨[⟨"a", maxInt, maxInt, -maxInt⟩, ⟨"b", maxInt, maxInt, maxInt⟩], 0⟩ ∧
    afterGets overflowPool (2 * k + 2)
      = ⟨[⟨"a", maxInt, maxInt, 2⟩, ⟨"b", maxInt, maxInt, -2⟩], 0⟩ := by
  have h0 : overflowPool.Get.2
      = ⟨[⟨"a", maxInt, maxInt, -maxInt⟩, ⟨"b", maxInt, maxInt, maxInt⟩], 0⟩ := by decide
  have h1 : (Pool.Get ⟨[⟨"a", maxInt, maxInt, -maxInt⟩, ⟨"b", maxInt, maxInt, maxInt⟩], 0⟩).2
      = ⟨[⟨"a", maxInt, maxInt, 2⟩, ⟨"b", maxInt, maxInt, -2⟩], 0⟩ := by decide
  have h2 : (Pool.Get ⟨[⟨"a", maxInt, maxInt, 2⟩, ⟨"b", maxInt, maxInt, -2⟩], 0⟩).2
      = ⟨[⟨"a", maxInt, maxInt, -maxInt⟩, ⟨"b", maxInt, maxInt, maxInt⟩], 0⟩ := by decide
  induction k with
  | zero =>
    have e1 : afterGets overflowPool 1 = overflowPool.Get.2 := rfl
    have e2 : afterGets overflowPool 2 = (afterGets overflowPool 1).Get.2 := rfl
    refine ⟨by rw [e1, h0], by rw [e2, e1, h0, h1]⟩
  | succ k ih =>
    have e1 : afterGets overflowPool (2 * (k + 1) + 1)
        = (afterGets overflowPool (2 * k + 2)).Get.2 := rfl
    have e2 : afterGets overflowPool (2 * (k + 1) + 2)
        = (afterGets overflowPool (2 * (k + 1) + 1)).Get.2 := rfl
    have s1 : afterGets overflowPool (2 * (k + 1) + 1)
        = ⟨[⟨"a", maxInt, maxInt, -maxInt⟩, ⟨"b", maxInt, maxInt, maxInt⟩], 0⟩ := by
      rw [e1, ih.2, h2]
    exact ⟨s1, by rw [e2, s1, h1]⟩

theorem overflowPool_nthGet_even (k : Nat) : nthGet overflowPool (2 * k + 2) = some 1 := by
  unfold nthGet
  rw [(overflowPool_run k).2]
  decide

/-- C1, as the code has it. Weighted fairness of `Get`: in the pool that
`CreatePool` builds from `CreatePeer` peers with weights `w_1..w_n >= 0` of
sum `S > 0`, if no addition or subtraction of the sequential `Get` calls
overflows the Go `int` (as is the case whenever `n * S` is at most
`math.MaxInt64`), then every window of `S` consecutive sequential `Get` calls,
starting at any offset `k`, returns the peer at position `i` exactly `w_i`
times. -/
theorem Get_weighted_fairness (specs : List (String × Int))
    (hw : ∀ s ∈ specs, 0 ≤ s.2) (hS : 0 < (specs.map Prod.snd).sum) :
    ((specs.length : Int) * (specs.map Prod.snd).sum ≤ maxInt →
      NeverOverflows (CreatePool (specs.map (fun s => CreatePeer s.1 s.2)))) ∧
    (NeverOverflows (CreatePool (specs.map (fun s => CreatePeer s.1 s.2))) →
      ∀ (k i : Nat) (hi : i < specs.length),
        (((getWindow (CreatePool (specs.map (fun s => CreatePeer s.1 s.2))) k
          (specs.map Prod.snd).sum.toNat).count (some i) : Nat) : Int) = specs[i].2) := by
  have hf := Fresh_CreatePool specs hw
  have hS1 : 0 < (CreatePool (specs.map (fun s => CreatePeer s.1 s.2))).weightSum := by
    rw [weightSum_CreatePool]; exact hS
  refine ⟨fun hB => neverOverflows_of_bounded hf hS1 (Bounded_CreatePool specs hB), ?_⟩
  intro hno k i hi
  have hx0 : (CreatePool (specs.map (fun s => CreatePeer s.1 s.2))).peers[i]?
      = some (CreatePeer specs[i].1 specs[i].2) := by
    simp [CreatePool, List.getElem?_map, List.getElem?_eq_getElem hi]
  have h1 := count_window_shift hf hS1 hno k i
  have h2 := (full_round hf hS1 hno i _ hx0).1
  rw [weightSum_CreatePool] at h1 h2
  rw [h1, h2]
  rfl

/-- Witness of C1: weights `5, 1, 1`, the window of `7` calls starting at
offset `3`, and the peer at position `0`. -/
theorem Get_weighted_fairness_witness :
    (((getWindow (CreatePool ([("a", 5), ("b", 1), ("c", 1)].map
        (fun s => CreatePeer s.1 s.2))) 3
        (([("a", 5), ("b", 1), ("c", 1)] : List (String × Int)).map Prod.snd).sum.toNat).count
          (some 0) : Nat) : Int) = 5 :=
  (Get_weighted_fairness [("a", 5), ("b", 1), ("c", 1)] (by decide) (by decide)).2
    ((Get_weighted_fairness [("a", 5), ("b", 1), ("c", 1)] (by decide) (by decide)).1
      (by decide))
    3 0 (by decide)

/-- Counterexample to C1 as stated: with the two weights `math.MaxInt64` the
additions of `Get` overflow, the calls return `a, a, b, a, b, ...`, and not
every window of `S = 2 * MaxInt64` calls returns the peer `a` exactly
`MaxInt64` times: the windows at offsets `0` and `1` differ by one. -/
theorem Get_weighted_fairness_counterexample :
    ¬ (∀ k : Nat, (((getWindow (CreatePool ([("a", maxInt), ("b", maxInt)].map
        (fun s => CreatePeer s.1 s.2))) k
        (([("a", maxInt), ("b", maxInt)] : List (String × Int)).map Prod.snd).sum.toNat).count
          (some 0) : Nat) : Int) = maxInt) := by
  intro h
  have hp : CreatePool ([("a", maxInt), ("b", maxInt)].map (fun s => CreatePeer s.1 s.2))
      = overflowPool := rfl
  have hS : (([("a", maxInt), ("b", maxInt)] : List (String × Int)).map Prod.snd).sum.toNat
      = 2 * 9223372036854775806 + 2 := by decide
  rw [hp, hS] at h
  have h0 := h 0
  have h1 := h 1
  have hfirst : nthGet overflowPool 0 = some 0 := by decide
  have hlast : nthGet overflowPool (2 * 9223372036854775806 + 2) = some 1 :=
    overflowPool_nthGet_even 9223372036854775806
  have e := window_count_shift overflowPool (2 * 9223372036854775806 + 2) 0
  rw [hfirst, hlast, if_pos rfl, if_neg (by decide)] at e
  omega

/-- C2, as the code has it. Tie-break of `Get`: on a non-empty pool in any
peer state, `Get` returns the smallest position `j` whose accumulator after
this scan's addition, the Go `int` value of `current_weight +
effective_weight` (wrapped around on overflow), is the maximum over all
peers; so of two peers that reach the same value the later one is never
returned, whatever their weights; and when no sum overflows, `j` is the
smallest position whose exact sum `current_weight + effective_weight` is the
maximum. -/
theorem Get_tie_break (p : Pool) (hne : p.peers ≠ []) :
    ∃ (j : Nat) (y : Peer), p.peers[j]? = some y ∧ p.Get.1 = some j ∧
      (∀ (i : Nat) (x : Peer), p.peers[i]? = some x →
        wrapInt (x.current_weight + x.effective_weight)
          ≤ wrapInt (y.current_weight + y.effective_weight)) ∧
      (∀ (i : Nat) (x : Peer), i < j → p.peers[i]? = some x →
        wrapInt (x.current_weight + x.effective_weight)
          < wrapInt (y.current_weight + y.effective_weight)) ∧
      (∀ (i k : Nat) (xi xk : Peer), i < k → p.peers[i]? = some xi → p.peers[k]? = some xk →
        wrapInt (xi.current_weight + xi.effective_weight)
          = wrapInt (xk.current_weight + xk.effective_weight) →
        p.Get.1 ≠ some k) ∧
      ((∀ x ∈ p.peers, wrapInt (x.current_weight + x.effective_weight)
          = x.current_weight + x.effective_weight) →
        (∀ (i : Nat) (x : Peer), p.peers[i]? = some x →
          x.current_weight + x.effective_weight ≤ y.current_weight + y.effective_weight) ∧
        (∀ (i : Nat) (x : Peer), i < j → p.peers[i]? = some x →
          x.current_weight + x.effective_weight
            < y.current_weight + y.effective_weight)) := by
  obtain ⟨j, y, hy, hsel, hmax, hlt, _⟩ := Get_spec p hne
  refine ⟨j, y, hy, hsel, hmax, hlt, ?_, ?_⟩
  · intro i k xi xk hik hxi hxk heq hk
    rw [hsel] at hk
    have hjk : j = k := Option.some.inj hk
    subst hjk
    rw [hy] at hxk
    have hyx : y = xk := Option.some.inj hxk
    subst hyx
    have h1 := hlt i xi hik hxi
    simp only [Peer.scan] at h1
    omega
  · intro hno
    have hyn := hno y (mem_of_getElem? hy)
    constructor
    · intro i x hx
      have h1 := hmax i x hx
      have hxn := hno x (mem_of_getElem? hx)
      simp only [Peer.scan] at h1
      omega
    · intro i x hi hx
      have h1 := hlt i x hi hx
      have hxn := hno x (mem_of_getElem? hx)
      simp only [Peer.scan] at h1
      omega

/-- Witness of C2: two peers of weights `1` and `3` that both reach `3` in the
scan; the first is returned. -/
theorem Get_tie_break_witness :
    (Pool.Get ⟨[⟨"a", 1, 1, 2⟩, ⟨"b", 3, 3, 0⟩], 0⟩).1 = some 0 ∧
    ∃ (j : Nat) (y : Peer),
      (⟨[⟨"a", 1, 1, 2⟩, ⟨"b", 3, 3, 0⟩], 0⟩ : Pool).peers[j]? = some y ∧
      (Pool.Get ⟨[⟨"a", 1, 1, 2⟩, ⟨"b", 3, 3, 0⟩], 0⟩).1 = some j :=
  ⟨by decide,
    match Get_tie_break ⟨[⟨"a", 1, 1, 2⟩, ⟨"b", 3, 3, 0⟩], 0⟩ (by decide) with
    | ⟨j, y, h1, h2, _⟩ => ⟨j, y, h1, h2⟩⟩

/-- Counterexample to C2 as stated: in the state that one `Get` leaves of the
fresh pool with the two weights `math.MaxInt64`, the sums `current_weight +
effective_weight` are `0` for `a` and `2 * MaxInt64` for `b`, yet `Get`
returns `a`, because the sum of `b` overflows to `-2`. -/
theorem Get_tie_break_counterexample :
    afterGets (CreatePool [CreatePeer "a" maxInt, CreatePeer "b" maxInt]) 1
      = ⟨[⟨"a", maxInt, maxInt, -maxInt⟩, ⟨"b", maxInt, maxInt, maxInt⟩], 0⟩ ∧
    (Pool.Get ⟨[⟨"a", maxInt, maxInt, -maxInt⟩, ⟨"b", maxInt, maxInt, maxInt⟩], 0⟩).1
      = some 0 ∧
    (-maxInt + maxInt : Int) < maxInt + maxInt ∧
    wrapInt (maxInt + maxInt) = -2 := by
  refine ⟨by decide, by decide, by decide, by decide⟩

theorem uint64Size_eq : uint64Size = 18446744073709551616 := by
  norm_num [uint64Size]

theorem EqualGet_of_pos (p : Pool) (hn : 0 < p.peers.length) (hc : p.current < uint64Size) :
    p.EqualGet = (some (p.current % p.peers.length),
      { p with current := (p.current + 1) % uint64Size }) := by
  have hold : ((p.current + 1) % uint64Size + uint64Size - 1) % uint64Size = p.current := by
    rw [uint64Size_eq] at hc ⊢
    omega
  unfold Pool.EqualGet Pool.Size
  rw [if_neg (by omega)]
  simp only [hold]

theorem afterEqualGets_spec (peers : List Peer) (hn : 0 < peers.length) (k : Nat) :
    afterEqualGets (CreatePool peers) k = { peers := peers, current := k % uint64Size } := by
  induction k with
  | zero => simp [afterEqualGets, CreatePool, uint64Size_eq]
  | succ k ih =>
    show (afterEqualGets (CreatePool peers) k).EqualGet.2 = _
    rw [ih, EqualGet_of_pos _ hn (Nat.mod_lt _ (by rw [uint64Size_eq]; omega))]
    simp only [Pool.mk.injEq, true_and]
    rw [uint64Size_eq]
    omega

theorem nthEqualGet_spec (peers : List Peer) (hn : 0 < peers.length) (k : Nat) :
    nthEqualGet (CreatePool peers) k = some ((k % uint64Size) % peers.length) := by
  unfold nthEqualGet
  rw [afterEqualGets_spec peers hn k,
    EqualGet_of_pos _ hn (Nat.mod_lt _ (by rw [uint64Size_eq]; omega))]

/-- C3, as the code has it. Cyclic selection of `EqualGet`: in a pool freshly
built by `CreatePool` with `n >= 1` peers, the `k`-th sequential `EqualGet`
call returns position `(k mod 2^64) mod n` and leaves the peers as they were;
so for `k < 2^64` it returns position `k mod n`, and every `n` consecutive
calls that end before call `2^64` visit every position exactly once. -/
theorem EqualGet_cyclic (peers : List Peer) (hne : peers ≠ []) (k : Nat) :
    nthEqualGet (CreatePool peers) k = some ((k % uint64Size) % peers.length) ∧
    (afterEqualGets (CreatePool peers) k).peers = peers ∧
    (k < uint64Size → nthEqualGet (CreatePool peers) k = some (k % peers.length)) ∧
    (k + peers.length ≤ uint64Size → ∀ i : Nat, i < peers.length →
      ∃! j : Nat, j < peers.length ∧ nthEqualGet (CreatePool peers) (k + j) = some i) := by
  have hn : 0 < peers.length := List.length_pos.mpr hne
  refine ⟨nthEqualGet_spec peers hn k, ?_, ?_, ?_⟩
  · rw [afterEqualGets_spec peers hn k]
  · intro hk
    rw [nthEqualGet_spec peers hn k, Nat.mod_eq_of_lt hk]
  · intro hk i hi
    have hsel : ∀ j : Nat, j < peers.length →
        nthEqualGet (CreatePool peers) (k + j) = some ((k + j) % peers.length) := by
      intro j hj
      rw [nthEqualGet_spec peers hn (k + j),
        Nat.mod_eq_of_lt (show k + j < uint64Size by omega)]
    have hj0 : (k + (i + (peers.length - k % peers.length)) % peers.length) % peers.length
        = i := by
      have hkm : k % peers.length < peers.length := Nat.mod_lt _ hn
      have hdm := Nat.div_add_mod k peers.length
      have h1 : k + (i + (peers.length - k % peers.length))
          = i + peers.length * (k / peers.length + 1) := by
        rw [Nat.mul_add, Nat.mul_one]
        omega
      rw [Nat.add_mod_mod, h1, Nat.add_mul_mod_self_left, Nat.mod_eq_of_lt hi]
    refine ⟨(i + (peers.length - k % peers.length)) % peers.length,
      ⟨Nat.mod_lt _ hn, ?_⟩, ?_⟩
    · rw [hsel _ (Nat.mod_lt _ hn), hj0]
    · rintro j ⟨hj, hjs⟩
      rw [hsel j hj] at hjs
      have hji : (k + j) % peers.length = i := Option.some.inj hjs
      have hmod : Nat.ModEq peers.length (k + j)
          (k + (i + (peers.length - k % peers.length)) % peers.length) := by
        unfold Nat.ModEq
        rw [hji, hj0]
      exact (Nat.ModEq.add_left_cancel' k hmod).eq_of_lt_of_lt hj (Nat.mod_lt _ hn)

/-- Witness of C3: three peers and the call number `4`. -/
theorem EqualGet_cyclic_witness :
    nthEqualGet (CreatePool [CreatePeer "a" 1, CreatePeer "b" 1, CreatePeer "c" 1]) 4
      = some 1 :=
  ((EqualGet_cyclic [CreatePeer "a" 1, CreatePeer "b" 1, CreatePeer "c" 1]
    (by simp) 4).2.2.1 (by norm_num [uint64Size]))

/-- Counterexample to C3 as stated: in a fresh pool of three peers the call
number `2^64` returns position `0`, while `2^64 mod 3 = 1`. -/
theorem EqualGet_cyclic_counterexample :
    nthEqualGet (CreatePool [CreatePeer "a" 1, CreatePeer "b" 1, CreatePeer "c" 1])
      (2 ^ 64) = some 0 ∧
    nthEqualGet (CreatePool [CreatePeer "a" 1, CreatePeer "b" 1, CreatePeer "c" 1])
      (2 ^ 64) ≠ some (2 ^ 64 % [CreatePeer "a" 1, CreatePeer "b" 1, CreatePeer "c" 1].length)
      := by
  have h := nthEqualGet_spec [CreatePeer "a" 1, CreatePeer "b" 1, CreatePeer "c" 1]
    (by simp) (2 ^ 64)
  have h0 : (2 ^ 64 % uint64Size) % [CreatePeer "a" 1, CreatePeer "b" 1,
      CreatePeer "c" 1].length = 0 := by
    norm_num [uint64Size]
  rw [h0] at h
  refine ⟨h, ?_⟩
  rw [h]
  norm_num

theorem Get_length (p : Pool) : p.Get.2.peers.length = p.peers.length := by
  by_cases hne : p.peers = []
  · rw [Get_nil p hne]
  · obtain ⟨j, y, _, _, _, _, hp⟩ := Get_spec p hne
    rw [hp]
    simp

theorem getElem?_lt {l : List Peer} {j : Nat} {y : Peer} (h : l[j]? = some y) :
    j < l.length := by
  rcases Nat.lt_or_ge j l.length with h1 | h1
  · exact h1
  · rw [List.getElem?_eq_none h1] at h; cases h

/-- C4. Empty-pool behaviour: `Get` and `EqualGet` return nil exactly when the
pool has no peers; on an empty pool neither call changes the pool (peers and
cursor); on a non-empty pool both return a position of the pool, whose peers
are as many as before (and, for `EqualGet`, unchanged). -/
theorem empty_pool_behaviour (p : Pool) :
    (p.Get.1 = none ↔ p.Size = 0) ∧ (p.EqualGet.1 = none ↔ p.Size = 0) ∧
    (p.Size = 0 → p.Get = (none, p) ∧ p.EqualGet = (none, p)) ∧
    (p.Size ≠ 0 →
      (∃ j : Nat, p.Get.1 = some j ∧ j < p.Get.2.Size ∧ p.Get.2.Size = p.Size) ∧
      (∃ j : Nat, p.EqualGet.1 = some j ∧ j < p.EqualGet.2.Size ∧
        p.EqualGet.2.peers = p.peers)) := by
  have hGetNE : p.Size ≠ 0 →
      ∃ j : Nat, p.Get.1 = some j ∧ j < p.Get.2.Size ∧ p.Get.2.Size = p.Size := by
    intro hs
    have hne : p.peers ≠ [] := by
      intro h
      apply hs
      simp [Pool.Size, h]
    obtain ⟨j, y, hy, hsel, _, _, _⟩ := Get_spec p hne
    refine ⟨j, hsel, ?_, Get_length p⟩
    unfold Pool.Size
    rw [Get_length]
    exact getElem?_lt hy
  have hEqNE : p.Size ≠ 0 →
      ∃ j : Nat, p.EqualGet.1 = some j ∧ j < p.EqualGet.2.Size ∧
        p.EqualGet.2.peers = p.peers := by
    intro hs
    have hpos : 0 < p.Size := Nat.pos_of_ne_zero hs
    unfold Pool.EqualGet
    rw [if_neg (by omega)]
    exact ⟨_, rfl, Nat.mod_lt _ hpos, rfl⟩
  have hGetE : p.Size = 0 → p.Get = (none, p) := by
    intro hs
    exact Get_nil p (List.length_eq_zero.mp hs)
  have hEqE : p.Size = 0 → p.EqualGet = (none, p) := by
    intro hs
    unfold Pool.EqualGet
    rw [if_pos (by omega)]
  refine ⟨⟨?_, fun hs => by rw [hGetE hs]⟩, ⟨?_, fun hs => by rw [hEqE hs]⟩,
    fun hs => ⟨hGetE hs, hEqE hs⟩, fun hs => ⟨hGetNE hs, hEqNE hs⟩⟩
  · intro hnone
    by_contra hs
    obtain ⟨j, hj, _⟩ := hGetNE hs
    rw [hnone] at hj
    cases hj
  · intro hnone
    by_contra hs
    obtain ⟨j, hj, _⟩ := hEqNE hs
    rw [hnone] at hj
    cases hj

/-- Witness of C4: the empty pool with cursor `7`, and a pool of two peers. -/
theorem empty_pool_behaviour_witness :
    (Pool.Get ⟨[], 7⟩ = (none, ⟨[], 7⟩) ∧ Pool.EqualGet ⟨[], 7⟩ = (none, ⟨[], 7⟩)) ∧
    ∃ j : Nat, (CreatePool [CreatePeer "a" 1, CreatePeer "b" 2]).Get.1 = some j ∧
      j < (CreatePool [CreatePeer "a" 1, CreatePeer "b" 2]).Get.2.Size ∧
      (CreatePool [CreatePeer "a" 1, CreatePeer "b" 2]).Get.2.Size
        = (CreatePool [CreatePeer "a" 1, CreatePeer "b" 2]).Size :=
  ⟨(empty_pool_behaviour ⟨[], 7⟩).2.2.1 (by decide),
    ((empty_pool_behaviour (CreatePool [CreatePeer "a" 1, CreatePeer "b" 2])).2.2.2
      (by decide)).1⟩

theorem indexOfPeerFrom_absent (a : String) (l : List Peer) (i : Int)
    (h : ∀ x ∈ l, x.addr ≠ a) : indexOfPeerFrom a l i = -1 := by
  induction l generalizing i with
  | nil => rfl
  | cons x l ih =>
    unfold indexOfPeerFrom
    rw [if_neg (h x (List.mem_cons_self _ _))]
    exact ih (i + 1) (fun y hy => h y (List.mem_cons_of_mem _ hy))

theorem indexOfPeerFrom_first (a : String) (l1 : List Peer) (x : Peer) (l2 : List Peer)
    (i : Int) (h1 : ∀ y ∈ l1, y.addr ≠ a) (hx : x.addr = a) :
    indexOfPeerFrom a (l1 ++ x :: l2) i = i + l1.length := by
  induction l1 generalizing i with
  | nil => simp [indexOfPeerFrom, hx]
  | cons z l1 ih =>
    rw [List.cons_append]
    unfold indexOfPeerFrom
    rw [if_neg (h1 z (List.mem_cons_self _ _)),
      ih (i + 1) (fun y hy => h1 y (List.mem_cons_of_mem _ hy))]
    simp only [List.length_cons, Nat.cast_add, Nat.cast_one]
    ring

theorem Remove_absent (p : Pool) (q : Peer) (h : ∀ x ∈ p.peers, x.addr ≠ q.addr) :
    p.Remove (some q) = p := by
  unfold Pool.Remove indexOfPeer
  simp only [indexOfPeerFrom_absent q.addr p.peers 0 h]
  rw [if_neg (by omega)]

theorem Remove_first (p : Pool) (q : Peer) (l1 : List Peer) (x : Peer) (l2 : List Peer)
    (hp : p.peers = l1 ++ x :: l2) (h1 : ∀ y ∈ l1, y.addr ≠ q.addr) (hx : x.addr = q.addr) :
    p.Remove (some q) = { p with peers := l1 ++ l2 } := by
  unfold Pool.Remove indexOfPeer
  simp only [hp, indexOfPeerFrom_first q.addr l1 x l2 0 h1 hx, Pool.Size]
  rw [if_pos (by simp)]
  simp

theorem exists_first (a : String) (l : List Peer) (h : ∃ x ∈ l, x.addr = a) :
    ∃ (l1 : List Peer) (x : Peer) (l2 : List Peer),
      l = l1 ++ x :: l2 ∧ (∀ y ∈ l1, y.addr ≠ a) ∧ x.addr = a := by
  induction l with
  | nil => obtain ⟨x, hx, _⟩ := h; cases hx
  | cons z l ih =>
    by_cases hz : z.addr = a
    · exact ⟨[], z, l, rfl, by simp, hz⟩
    · have h2 : ∃ x ∈ l, x.addr = a := by
        obtain ⟨x, hx, hxa⟩ := h
        rcases List.mem_cons.mp hx with rfl | hx
        · exact absurd hxa hz
        · exact ⟨x, hx, hxa⟩
      obtain ⟨l1, x, l2, hl, hl1, hxa⟩ := ih h2
      refine ⟨z :: l1, x, l2, by rw [hl]; rfl, ?_, hxa⟩
      intro y hy
      rcases List.mem_cons.mp hy with rfl | hy
      · exact hz
      · exact hl1 y hy

/-- C5. Membership idempotence: `Add(P)` followed by `Remove` of a peer with
the address of `P` restores the pool's `Size()` and its set of addresses (and
leaves the cursor); when the address of `P` was not in the pool, the whole
peer sequence is exactly the one before `Add`. -/
theorem Add_Remove_restores (p : Pool) (P Q : Peer) (hQ : Q.addr = P.addr) :
    ((p.Add (some P)).Remove (some Q)).Size = p.Size ∧
    (∀ a : String, a ∈ ((p.Add (some P)).Remove (some Q)).peers.map Peer.addr ↔
      a ∈ p.peers.map Peer.addr) ∧
    ((p.Add (some P)).Remove (some Q)).current = p.current ∧
    (P.addr ∉ p.peers.map Peer.addr → (p.Add (some P)).Remove (some Q) = p) := by
  by_cases hin : ∃ x ∈ p.peers, x.addr = Q.addr
  · obtain ⟨l1, x, l2, hl, hl1, hxa⟩ := exists_first Q.addr p.peers hin
    have hadd : (p.Add (some P)).peers = l1 ++ x :: (l2 ++ [P]) := by
      simp [Pool.Add, hl]
    rw [Remove_first (p.Add (some P)) Q l1 x (l2 ++ [P]) hadd hl1 hxa]
    refine ⟨?_, ?_, rfl, ?_⟩
    · simp [Pool.Size, hl]
    · intro a
      simp only [hl, List.map_append, List.map_cons, List.map_nil, List.mem_append,
        List.mem_cons, List.mem_singleton, List.not_mem_nil, or_false]
      rw [hxa, hQ]
      tauto
    · intro hnot
      exfalso
      apply hnot
      rw [← hQ, ← hxa, hl]
      simp
  · have hl1 : ∀ y ∈ p.peers, y.addr ≠ Q.addr := by
      intro y hy hya
      exact hin ⟨y, hy, hya⟩
    have hadd : (p.Add (some P)).peers = p.peers ++ P :: [] := rfl
    rw [Remove_first (p.Add (some P)) Q p.peers P [] hadd hl1 hQ.symm]
    simp [Pool.Add, Pool.Size]

/-- Witness of C5: adding a second peer with address `a` to a pool that holds
`a` and `b`, then removing address `a`. -/
theorem Add_Remove_restores_witness :
    (((CreatePool [CreatePeer "a" 1, CreatePeer "b" 2]).Add
      (some (CreatePeer "a" 5))).Remove (some (CreatePeer "a" 0))).Size
      = (CreatePool [CreatePeer "a" 1, CreatePeer "b" 2]).Size :=
  (Add_Remove_restores (CreatePool [CreatePeer "a" 1, CreatePeer "b" 2])
    (CreatePeer "a" 5) (CreatePeer "a" 0) (by decide)).1

/-- C6. `Remove` erases the first match only: `Remove(nil)` and `Remove` of an
address that no peer has leave the pool unchanged; otherwise exactly the first
peer with that address is deleted, all other peers (later ones with the same
address too) keep their order, the cursor stays, and `Size()` goes down by
exactly one. -/
theorem Remove_first_match (p : Pool) (q : Peer) :
    p.Remove none = p ∧
    ((∀ x ∈ p.peers, x.addr ≠ q.addr) → p.Remove (some q) = p) ∧
    (∀ (l1 : List Peer) (x : Peer) (l2 : List Peer),
      p.peers = l1 ++ x :: l2 → (∀ y ∈ l1, y.addr ≠ q.addr) → x.addr = q.addr →
      (p.Remove (some q)).peers = l1 ++ l2 ∧
      (p.Remove (some q)).current = p.current ∧
      (p.Remove (some q)).Size + 1 = p.Size) ∧
    ((∃ x ∈ p.peers, x.addr = q.addr) → (p.Remove (some q)).Size + 1 = p.Size) := by
  have h3 : ∀ (l1 : List Peer) (x : Peer) (l2 : List Peer),
      p.peers = l1 ++ x :: l2 → (∀ y ∈ l1, y.addr ≠ q.addr) → x.addr = q.addr →
      (p.Remove (some q)).peers = l1 ++ l2 ∧
      (p.Remove (some q)).current = p.current ∧
      (p.Remove (some q)).Size + 1 = p.Size := by
    intro l1 x l2 hp hl1 hx
    rw [Remove_first p q l1 x l2 hp hl1 hx]
    refine ⟨rfl, rfl, ?_⟩
    simp [Pool.Size, hp]
    omega
  refine ⟨rfl, Remove_absent p q, h3, ?_⟩
  intro hin
  obtain ⟨l1, x, l2, hl, hl1, hxa⟩ := exists_first q.addr p.peers hin
  exact (h3 l1 x l2 hl hl1 hxa).2.2

/-- Witness of C6: removing address `b` from the peers `a, b, c, b`. -/
theorem Remove_first_match_witness :
    ((CreatePool [CreatePeer "a" 1, CreatePeer "b" 2, CreatePeer "c" 3,
        CreatePeer "b" 4]).Remove (some (CreatePeer "b" 0))).peers
      = [CreatePeer "a" 1] ++ [CreatePeer "c" 3, CreatePeer "b" 4] :=
  ((Remove_first_match (CreatePool [CreatePeer "a" 1, CreatePeer "b" 2, CreatePeer "c" 3,
      CreatePeer "b" 4]) (CreatePeer "b" 0)).2.2.1
    [CreatePeer "a" 1] (CreatePeer "b" 2) [CreatePeer "c" 3, CreatePeer "b" 4]
    rfl (by decide) rfl).1

/-- C7. `Add` appends without a duplicate check: for a non-nil peer `P`, also
one whose address is already present, the peers after `Add(P)` are the old
peers followed by `P`, `Size()` is the old size plus one and the cursor is
unchanged; `Add(nil)` changes nothing. -/
theorem Add_appends (p : Pool) (P : Peer) :
    (p.Add (some P)).peers = p.peers ++ [P] ∧
    (p.Add (some P)).Size = p.Size + 1 ∧
    (p.Add (some P)).current = p.current ∧
    (∀ (i : Nat) (x : Peer), p.peers[i]? = some x → (p.Add (some P)).peers[i]? = some x) ∧
    p.Add none = p := by
  refine ⟨rfl, by simp [Pool.Add, Pool.Size], rfl, ?_, rfl⟩
  intro i x hx
  show (p.peers ++ [P])[i]? = some x
  rw [List.getElem?_append_left (getElem?_lt hx)]
  exact hx

/-- Witness of C7: adding a second peer with address `a`. -/
theorem Add_appends_witness :
    ((CreatePool [CreatePeer "a" 1]).Add (some (CreatePeer "a" 2))).peers[0]?
      = some (CreatePeer "a" 1) :=
  (Add_appends (CreatePool [CreatePeer "a" 1]) (CreatePeer "a" 2)).2.2.2.1 0
    (CreatePeer "a" 1) rfl

theorem Get_peer_step (p : Pool) (i : Nat) (x : Peer) (hx : p.peers[i]? = some x) :
    ∃ x1 : Peer, p.Get.2.peers[i]? = some x1 ∧ x1.addr = x.addr ∧ x1.weight = x.weight ∧
      x.effective_weight ≤ x1.effective_weight ∧
      (x.effective_weight = x.weight → x1.effective_weight = x.effective_weight) := by
  have hne : p.peers ≠ [] := by
    intro h
    rw [h] at hx
    simp at hx
  obtain ⟨j, y, hy, _, _, _, hq⟩ := Get_spec p hne
  have hpt := Get_getElem? p j y hy hq i
  rw [hx] at hpt
  simp only [Option.map_some'] at hpt
  have hscan : x.effective_weight ≤ x.scan.effective_weight ∧
      (x.effective_weight = x.weight → x.scan.effective_weight = x.effective_weight) := by
    simp only [Peer.scan]
    constructor
    · split <;> omega
    · intro h
      rw [if_neg (by omega)]
  by_cases hij : i = j
  · rw [if_pos hij] at hpt
    exact ⟨_, hpt, rfl, rfl, hscan.1, hscan.2⟩
  · rw [if_neg hij] at hpt
    exact ⟨_, hpt, rfl, rfl, hscan.1, hscan.2⟩

theorem Get_static (p : Pool) (h : ∀ x ∈ p.peers, x.effective_weight = x.weight) :
    ∀ x ∈ p.Get.2.peers, x.effective_weight = x.weight := by
  intro x1 hx1
  obtain ⟨i, hi⟩ := List.mem_iff_getElem?.mp hx1
  have hlt : i < p.peers.length := by
    rw [← Get_length p]
    exact getElem?_lt hi
  have hx : p.peers[i]? = some p.peers[i] := List.getElem?_eq_getElem hlt
  obtain ⟨x2, hx2, _, hw, _, hew⟩ := Get_peer_step p i _ hx
  rw [hi] at hx2
  have he : x1 = x2 := Option.some.inj hx2
  subst he
  have h0 := h _ (mem_of_getElem? hx)
  rw [hew h0, hw, h0]

theorem EqualGet_peers (p : Pool) : p.EqualGet.2.peers = p.peers := by
  unfold Pool.EqualGet
  split <;> rfl

theorem Remove_subset (p : Pool) (q : Option Peer) :
    ∀ x ∈ (p.Remove q).peers, x ∈ p.peers := by
  intro x hx
  unfold Pool.Remove at hx
  rcases q with _ | q
  · exact hx
  · simp only at hx
    split at hx
    · rcases List.mem_append.mp hx with h1 | h1
      · exact List.mem_of_mem_take h1
      · exact List.mem_of_mem_drop h1
    · exact hx

theorem apply_static (p : Pool) (op : Op)
    (h : ∀ x ∈ p.peers, x.effective_weight = x.weight)
    (hadd : ∀ x : Peer, op = Op.Add (some x) → x.effective_weight = x.weight) :
    ∀ x ∈ (p.apply op).peers, x.effective_weight = x.weight := by
  rcases op with (_ | a) | q | _ | _
  · exact h
  · intro x hx
    rcases List.mem_append.mp hx with h1 | h1
    · exact h x h1
    · rw [List.mem_singleton] at h1
      rw [h1]
      exact hadd a rfl
  · intro x hx
    exact h x (Remove_subset p q x hx)
  · exact Get_static p h
  · intro x hx
    have hx1 : x ∈ p.EqualGet.2.peers := hx
    rw [EqualGet_peers] at hx1
    exact h x hx1

theorem run_static (ops : List Op) (p : Pool)
    (h : ∀ x ∈ p.peers, x.effective_weight = x.weight)
    (hadd : ∀ x : Peer, Op.Add (some x) ∈ ops → x.effective_weight = x.weight) :
    ∀ x ∈ (p.run ops).peers, x.effective_weight = x.weight := by
  induction ops generalizing p with
  | nil => exact h
  | cons op rest ih =>
    unfold Pool.run
    rw [List.foldl_cons]
    exact ih (p.apply op)
      (apply_static p op h (fun x hx => hadd x (by rw [hx]; exact List.mem_cons_self _ _)))
      (fun x hx => hadd x (List.mem_cons_of_mem _ hx))

/-- C15. The `effective_weight` of a peer stays within `[0, weight]`: in a pool
of `CreatePeer` peers, after every sequence of `Add` (of peers whose
`effective_weight` is their `weight`, as `CreatePeer` makes them), `Remove`,
`Get` and `EqualGet`, every peer of the pool has `effective_weight = weight`,
hence `0 <= effective_weight <= weight` when `weight >= 0`, and the recovery
increment of `Get` does not fire; and in any state one `Get` keeps every peer's
address and weight and never lowers its `effective_weight`. -/
theorem effective_weight_bounded (specs : List (String × Int)) (ops : List Op)
    (hadd : ∀ x : Peer, Op.Add (some x) ∈ ops → x.effective_weight = x.weight) :
    (∀ x ∈ ((CreatePool (specs.map (fun s => CreatePeer s.1 s.2))).run ops).peers,
      x.effective_weight = x.weight ∧ ¬ (x.effective_weight < x.weight) ∧
      x.scan.effective_weight = x.effective_weight ∧
      (0 ≤ x.weight → 0 ≤ x.effective_weight ∧ x.effective_weight ≤ x.weight)) ∧
    (∀ (p : Pool) (i : Nat) (x : Peer), p.peers[i]? = some x →
      ∃ x1 : Peer, p.Get.2.peers[i]? = some x1 ∧ x1.addr = x.addr ∧ x1.weight = x.weight ∧
        x.effective_weight ≤ x1.effective_weight ∧
        (x.effective_weight = x.weight → x1.effective_weight = x.effective_weight)) := by
  refine ⟨?_, Get_peer_step⟩
  intro x hx
  have h0 : ∀ y ∈ (CreatePool (specs.map (fun s => CreatePeer s.1 s.2))).peers,
      y.effective_weight = y.weight := by
    intro y hy
    obtain ⟨s, _, rfl⟩ := List.mem_map.mp hy
    rfl
  have h := run_static ops _ h0 hadd x hx
  refine ⟨h, by omega, ?_, fun hw => ⟨by omega, by omega⟩⟩
  simp only [Peer.scan]
  rw [if_neg (by omega)]

set_option maxRecDepth 100000 in
/-- Witness of C15: peers `a` and `b`, then `Get`, `Add` of `c`, `Get`,
`Remove` of `a`, `EqualGet`, `Get`; the peer `c` is in the pool at the end,
with `effective_weight` equal to `weight`. -/
theorem effective_weight_bounded_witness :
    (⟨"c", 1, 1, 1⟩ : Peer) ∈
      ((CreatePool ([("a", 2), ("b", 0)].map (fun s => CreatePeer s.1 s.2))).run
        [Op.Get, Op.Add (some (CreatePeer "c" 1)), Op.Get,
          Op.Remove (some (CreatePeer "a" 0)), Op.EqualGet, Op.Get]).peers ∧
    (⟨"c", 1, 1, 1⟩ : Peer).effective_weight = (⟨"c", 1, 1, 1⟩ : Peer).weight :=
  ⟨by decide,
    ((effective_weight_bounded [("a", 2), ("b", 0)]
      [Op.Get, Op.Add (some (CreatePeer "c" 1)), Op.Get,
        Op.Remove (some (CreatePeer "a" 0)), Op.EqualGet, Op.Get]
      (by
        intro x hx
        simp at hx
        rw [hx]
        rfl)).1 ⟨"c", 1, 1, 1⟩ (by decide)).1⟩

/-- C16, as the code has it. The cursor of `EqualGet`: on a non-empty pool with
a 64-bit cursor value `c`, one `EqualGet` call selects position `c mod Size()`,
leaves the peers as they were and leaves the cursor at `(c + 1) mod 2^64`:
that is `c + 1`, strictly greater than `c`, for every `c < 2^64 - 1`, and `0`
for `c = 2^64 - 1`. -/
theorem EqualGet_cursor (p : Pool) (hne : p.peers ≠ []) (hc : p.current < uint64Size) :
    p.EqualGet.1 = some (p.current % p.Size) ∧
    p.EqualGet.2.peers = p.peers ∧
    p.EqualGet.2.current = (p.current + 1) % uint64Size ∧
    (p.current < uint64Size - 1 →
      p.EqualGet.2.current = p.current + 1 ∧ p.current < p.EqualGet.2.current) ∧
    (p.current = uint64Size - 1 → p.EqualGet.2.current = 0) := by
  have hn : 0 < p.peers.length := List.length_pos.mpr hne
  rw [EqualGet_of_pos p hn hc]
  refine ⟨rfl, rfl, rfl, ?_, ?_⟩
  · intro h
    simp only
    rw [uint64Size_eq] at h ⊢
    omega
  · intro h
    simp only
    rw [uint64Size_eq] at h ⊢
    omega

/-- Witness of C16: three peers and the cursor value `7`. -/
theorem EqualGet_cursor_witness :
    (Pool.EqualGet ⟨[CreatePeer "a" 1, CreatePeer "b" 1, CreatePeer "c" 1], 7⟩).1
      = some (7 % 3) ∧
    (Pool.EqualGet ⟨[CreatePeer "a" 1, CreatePeer "b" 1, CreatePeer "c" 1], 7⟩).2.current
      = 7 + 1 :=
  ⟨(EqualGet_cursor ⟨[CreatePeer "a" 1, CreatePeer "b" 1, CreatePeer "c" 1], 7⟩
      (by simp) (by norm_num [uint64Size])).1,
    ((EqualGet_cursor ⟨[CreatePeer "a" 1, CreatePeer "b" 1, CreatePeer "c" 1], 7⟩
      (by simp) (by norm_num [uint64Size])).2.2.2.1 (by norm_num [uint64Size])).1⟩

/-- Counterexample to C16 as stated: at the largest 64-bit cursor value
`c = 2^64 - 1` one `EqualGet` call leaves the cursor at `0`, which is neither
`c + 1` nor greater than `c`. -/
theorem EqualGet_cursor_counterexample :
    (2 ^ 64 - 1 : Nat) < uint64Size ∧
    (Pool.EqualGet ⟨[CreatePeer "a" 1], 2 ^ 64 - 1⟩).2.current = 0 ∧
    (Pool.EqualGet ⟨[CreatePeer "a" 1], 2 ^ 64 - 1⟩).2.current ≠ (2 ^ 64 - 1) + 1 ∧
    ¬ ((2 ^ 64 - 1 : Nat) < (Pool.EqualGet ⟨[CreatePeer "a" 1], 2 ^ 64 - 1⟩).2.current) := by
  have h : (Pool.EqualGet ⟨[CreatePeer "a" 1], 2 ^ 64 - 1⟩).2.current = 0 := by
    rw [EqualGet_of_pos _ (by simp) (by norm_num [uint64Size])]
    norm_num [uint64Size]
  refine ⟨by norm_num [uint64Size], h, ?_, ?_⟩
  · rw [h]; norm_num
  · rw [h]; norm_num

/-- C17. Smooth spreading: in the fresh pool of the peers `a`, `b`, `c`,
inserted in that order with weights `5`, `1`, `1`, the first seven sequential
`Get` calls return `a, a, b, a, c, a, a` (positions `0, 0, 1, 0, 2, 0, 0`), so
the five selections of `a` are not contiguous, and the pool is then back in
its first state. -/
theorem Get_smooth_example :
    getWindow (CreatePool [CreatePeer "a" 5, CreatePeer "b" 1, CreatePeer "c" 1]) 0 7
      = [some 0, some 0, some 1, some 0, some 2, some 0, some 0] ∧
    getWindow (CreatePool [CreatePeer "a" 5, CreatePeer "b" 1, CreatePeer "c" 1]) 0 7
      ≠ [some 0, some 0, some 0, some 0, some 0, some 1, some 2] ∧
    afterGets (CreatePool [CreatePeer "a" 5, CreatePeer "b" 1, CreatePeer "c" 1]) 7
      = CreatePool [CreatePeer "a" 5, CreatePeer "b" 1, CreatePeer "c" 1] := by
  refine ⟨by decide, by decide, by decide⟩

theorem currentSum_zero (p : Pool) (h : ∀ x ∈ p.peers, x.current_weight = 0) :
    p.currentSum = 0 := by
  unfold Pool.currentSum
  have : ∀ l : List Peer, (∀ x ∈ l, x.current_weight = 0) →
      (l.map Peer.current_weight).sum = 0 := by
    intro l
    induction l with
    | nil => simp
    | cons a l ih =>
      intro hl
      simp [hl a (List.mem_cons_self _ _), ih (fun x hx => hl x (List.mem_cons_of_mem _ hx))]
  exact this _ h

theorem wrapInt_zero : wrapInt 0 = 0 := by decide

theorem total_all_zero (l : List Peer) (h : ∀ x ∈ l, x.effective_weight = 0) :
    l.foldl (fun t x => wrapInt (t + x.effective_weight)) 0 = 0 := by
  induction l with
  | nil => rfl
  | cons a l ih =>
    rw [List.foldl_cons, h a (List.mem_cons_self _ _), add_zero, wrapInt_zero]
    exact ih (fun x hx => h x (List.mem_cons_of_mem _ hx))

theorem Get_all_zero (p : Pool) (hne : p.peers ≠ [])
    (h : ∀ x ∈ p.peers, x.weight = 0 ∧ x.effective_weight = 0 ∧ x.current_weight = 0) :
    p.Get = (some 0, p) := by
  obtain ⟨j, y, hy, hsel, _, hlt, hq⟩ := Get_spec p hne
  have hscan : ∀ x ∈ p.peers, x.scan = x := by
    intro x hx
    obtain ⟨h1, h2, h3⟩ := h x hx
    cases x
    simp only at h1 h2 h3
    simp [Peer.scan, h1, h2, h3, wrapInt_zero]
  have htot : p.total = 0 := total_all_zero p.peers (fun x hx => (h x hx).2.1)
  have hj : j = 0 := by
    by_contra hj
    rcases hp : p.peers with _ | ⟨x0, rest⟩
    · exact hne hp
    · have hx0 : p.peers[0]? = some x0 := by rw [hp]; simp
      have hlt0 := hlt 0 x0 (Nat.pos_of_ne_zero hj) hx0
      rw [hscan x0 (mem_of_getElem? hx0), hscan y (mem_of_getElem? hy),
        (h x0 (mem_of_getElem? hx0)).2.2, (h y (mem_of_getElem? hy)).2.2] at hlt0
      exact lt_irrefl _ hlt0
  have hpeers : p.Get.2.peers = p.peers := by
    apply List.ext_getElem?
    intro i
    rw [Get_getElem? p j y hy hq i]
    rcases hx : p.peers[i]? with _ | x
    · rfl
    · have hxs := hscan x (mem_of_getElem? hx)
      have hx0 := (h x (mem_of_getElem? hx)).2.2
      simp only [Option.map_some', Option.some.injEq]
      by_cases hij : i = j
      · rw [if_pos hij]
        unfold Peer.settle
        rw [hxs, htot, hx0, sub_zero, wrapInt_zero]
        cases x
        simp only at hx0
        rw [hx0]
      · rw [if_neg hij]
        exact hxs
  have hcur : p.Get.2.current = p.current := by rw [hq]
  have h2 : p.Get.2 = p := by
    cases hg : p.Get.2 with
    | mk peers current =>
      rw [hg] at hpeers hcur
      cases p
      simp only at hpeers hcur
      rw [hpeers, hcur]
  have h1 : p.Get.1 = some 0 := by rw [hsel, hj]
  exact Prod.ext h1 h2

theorem afterGets_all_zero (p : Pool) (hne : p.peers ≠ [])
    (h : ∀ x ∈ p.peers, x.weight = 0 ∧ x.effective_weight = 0 ∧ x.current_weight = 0)
    (k : Nat) : afterGets p k = p := by
  induction k with
  | zero => rfl
  | succ k ih =>
    show (afterGets p k).Get.2 = p
    rw [ih, Get_all_zero p hne h]

theorem afterGets_nil (p : Pool) (h : p.peers = []) (k : Nat) : afterGets p k = p := by
  induction k with
  | zero => rfl
  | succ k ih =>
    show (afterGets p k).Get.2 = p
    rw [ih, Get_nil p h]

theorem sum_map_scan_modEq (l : List Peer) :
    Int.ModEq (2 ^ 64) ((l.map Peer.scan).map Peer.current_weight).sum
      ((l.map Peer.current_weight).sum + (l.map Peer.effective_weight).sum) := by
  induction l with
  | nil => exact Int.ModEq.refl _
  | cons a l ih =>
    simp only [List.map_cons, List.sum_cons]
    have ha : Int.ModEq (2 ^ 64) a.scan.current_weight
        (a.current_weight + a.effective_weight) := wrapInt_modEq _
    have e : a.current_weight + (l.map Peer.current_weight).sum
        + (a.effective_weight + (l.map Peer.effective_weight).sum)
        = a.current_weight + a.effective_weight
          + ((l.map Peer.current_weight).sum + (l.map Peer.effective_weight).sum) := by ring
    rw [e]
    exact Int.ModEq.add ha ih

theorem total_modEq (l : List Peer) (t : Int) :
    Int.ModEq (2 ^ 64) (l.foldl (fun t x => wrapInt (t + x.effective_weight)) t)
      (t + (l.map Peer.effective_weight).sum) := by
  induction l generalizing t with
  | nil => simp only [List.foldl_nil, List.map_nil, List.sum_nil, add_zero]; exact Int.ModEq.refl _
  | cons a l ih =>
    rw [List.foldl_cons]
    have h1 := ih (wrapInt (t + a.effective_weight))
    have h2 : Int.ModEq (2 ^ 64)
        (wrapInt (t + a.effective_weight) + (l.map Peer.effective_weight).sum)
        (t + a.effective_weight + (l.map Peer.effective_weight).sum) :=
      Int.ModEq.add (wrapInt_modEq _) (Int.ModEq.refl _)
    simp only [List.map_cons, List.sum_cons]
    rw [← add_assoc]
    exact h1.trans h2

theorem Get_sum_modEq (p : Pool) :
    Int.ModEq (2 ^ 64) p.Get.2.currentSum p.currentSum := by
  unfold Pool.currentSum
  by_cases hne : p.peers = []
  · rw [Get_nil p hne]
  · obtain ⟨j, y, hy, _, _, _, hp⟩ := Get_spec p hne
    rw [hp]
    have hy1 : (p.peers.map Peer.scan)[j]? = some y.scan := by
      rw [List.getElem?_map, hy]; rfl
    simp only
    rw [sum_map_set Peer.current_weight _ j y.scan _ hy1]
    have h1 := sum_map_scan_modEq p.peers
    have h2 : Int.ModEq (2 ^ 64) (y.settle p.total).current_weight
        (y.scan.current_weight - p.total) := wrapInt_modEq _
    have h3 : Int.ModEq (2 ^ 64) p.total (0 + (p.peers.map Peer.effective_weight).sum) :=
      total_modEq p.peers 0
    rw [zero_add] at h3
    have h4 := Int.ModEq.add (Int.ModEq.sub h1 (Int.ModEq.refl y.scan.current_weight))
      (h2.trans (Int.ModEq.sub (Int.ModEq.refl y.scan.current_weight) h3))
    have e : (p.peers.map Peer.current_weight).sum + (p.peers.map Peer.effective_weight).sum
        - y.scan.current_weight
        + (y.scan.current_weight - (p.peers.map Peer.effective_weight).sum)
        = (p.peers.map Peer.current_weight).sum := by ring
    rw [e] at h4
    exact h4

theorem NoOverflow_nil (p : Pool) (h : p.peers = []) : NoOverflow p := by
  refine ⟨?_, ?_, ?_⟩
  · intro x hx
    rw [h] at hx
    cases hx
  · unfold Pool.total
    rw [h]
    rfl
  · intro y hy
    unfold Pool.winner at hy
    rw [Get_nil p h] at hy
    cases hy

theorem NoOverflow_all_zero (p : Pool) (hne : p.peers ≠ [])
    (h : ∀ x ∈ p.peers, x.weight = 0 ∧ x.effective_weight = 0 ∧ x.current_weight = 0) :
    NoOverflow p := by
  have hs : (p.peers.map Peer.effective_weight).sum = 0 := by
    have : ∀ l : List Peer, (∀ x ∈ l, x.effective_weight = 0) →
        (l.map Peer.effective_weight).sum = 0 := by
      intro l
      induction l with
      | nil => simp
      | cons a l ih =>
        intro hl
        simp [hl a (List.mem_cons_self _ _),
          ih (fun x hx => hl x (List.mem_cons_of_mem _ hx))]
    exact this _ (fun x hx => (h x hx).2.1)
  refine ⟨?_, ?_, ?_⟩
  · intro x hx
    rw [(h x hx).2.1, (h x hx).2.2, add_zero, wrapInt_zero]
  · rw [hs]
    exact total_all_zero p.peers (fun x hx => (h x hx).2.1)
  · intro y hy
    obtain ⟨j, y1, hy1, hsel, _, _, _⟩ := Get_spec p hne
    rw [winner_eq p j y1 hy1 hsel] at hy
    have hyy : y1 = y := Option.some.inj hy
    subst hyy
    have hz := h y1 (mem_of_getElem? hy1)
    rw [hs, hz.2.1, hz.2.2, add_zero, sub_zero, wrapInt_zero]

theorem neverOverflows_of_fresh_bounded (p : Pool) (hf : Fresh p) (hB : Bounded p) :
    NeverOverflows p := by
  by_cases hne : p.peers = []
  · intro t
    rw [afterGets_nil p hne]
    exact NoOverflow_nil p hne
  · have hnn : ∀ x ∈ p.peers, 0 ≤ x.weight := fun x hx => (hf x hx).2.2
    by_cases hS : 0 < p.weightSum
    · exact neverOverflows_of_bounded hf hS hB
    · have hs0 : (p.peers.map Peer.weight).sum = 0 := by
        have h1 : 0 ≤ (p.peers.map Peer.weight).sum := List.sum_nonneg (by
          intro v hv
          obtain ⟨x, hx, rfl⟩ := List.mem_map.mp hv
          exact hnn x hx)
        have h2 : p.weightSum = (p.peers.map Peer.weight).sum := rfl
        omega
      have hw0 := sum_map_zero_of_nonneg Peer.weight p.peers hnn hs0
      have hall : ∀ x ∈ p.peers,
          x.weight = 0 ∧ x.effective_weight = 0 ∧ x.current_weight = 0 :=
        fun x hx => ⟨hw0 x hx, by rw [(hf x hx).1]; exact hw0 x hx, (hf x hx).2.1⟩
      intro t
      rw [afterGets_all_zero p hne hall]
      exact NoOverflow_all_zero p hne hall

theorem run_sum_conserved (p : Pool) (hno : NeverOverflows p) (k : Nat) :
    (afterGets p k).currentSum = p.currentSum := by
  induction k with
  | zero => rfl
  | succ k ih =>
    show ((afterGets p k).Get.2.peers.map Peer.current_weight).sum = p.currentSum
    rw [Get_sum_current_weight _ (hno k)]
    exact ih

/-- C18, as the code has it. `Get` and the sum of the accumulators: for every
pool in any peer state the sum of `current_weight` over all peers is the same
after a `Get` call as before it modulo `2^64`, and exactly the same when no
addition or subtraction of the call overflows the Go `int`; on a non-empty
pool the scan adds to each peer its `effective_weight` of before the call and
the winner is then lowered by `total`, the sum of these; so over sequential
`Get` calls none of which overflows the sum stays what it was, and from a
fresh pool of `CreatePeer` peers with weights `>= 0` whose number times their
sum is at most `math.MaxInt64` no call overflows and the sum is `0` after
every `Get`. -/
theorem Get_conserves_sum (p : Pool) :
    Int.ModEq (2 ^ 64) p.Get.2.currentSum p.currentSum ∧
    (NoOverflow p → p.Get.2.currentSum = p.currentSum) ∧
    (p.peers ≠ [] → ∃ (j : Nat) (y : Peer), p.peers[j]? = some y ∧ p.Get.1 = some j ∧
      p.Get.2.peers = (p.peers.map Peer.scan).set j
        { y.scan with current_weight := wrapInt (y.scan.current_weight - p.total) } ∧
      (NoOverflow p → p.total = (p.peers.map Peer.effective_weight).sum ∧
        ((p.peers.map Peer.scan).map Peer.current_weight).sum = p.currentSum + p.total)) ∧
    (NeverOverflows p → ∀ k : Nat, (afterGets p k).currentSum = p.currentSum) ∧
    (Fresh p → Bounded p →
      NeverOverflows p ∧ ∀ k : Nat, (afterGets p k).currentSum = 0) := by
  refine ⟨Get_sum_modEq p, Get_sum_current_weight p, ?_, run_sum_conserved p, ?_⟩
  · intro hne
    obtain ⟨j, y, hy, hsel, _, _, hq⟩ := Get_spec p hne
    refine ⟨j, y, hy, hsel, ?_, ?_⟩
    · rw [hq]
      rfl
    · intro hno
      refine ⟨hno.2.1, ?_⟩
      rw [sum_map_scan p.peers hno.1, hno.2.1]
      rfl
  · intro hf hB
    have hno := neverOverflows_of_fresh_bounded p hf hB
    refine ⟨hno, fun k => ?_⟩
    rw [run_sum_conserved p hno k]
    exact currentSum_zero p (fun x hx => (hf x hx).2.1)

/-- Witness of C18: the fresh pool of weights `5, 1, 1` after three calls. -/
theorem Get_conserves_sum_witness :
    (afterGets (CreatePool [CreatePeer "a" 5, CreatePeer "b" 1, CreatePeer "c" 1])
      3).currentSum = 0 :=
  ((Get_conserves_sum (CreatePool [CreatePeer "a" 5, CreatePeer "b" 1,
    CreatePeer "c" 1])).2.2.2.2
    (by unfold Fresh; decide) (by unfold Bounded; decide)).2 3

/-- Counterexample to C18 as stated: in the fresh pool of weights `2^62, 2^62,
2^62, 0` the accumulators sum to `0` after the first `Get` and to `-2^64`
after the second. -/
theorem Get_conserves_sum_counterexample :
    (afterGets (CreatePool [CreatePeer "a" (2 ^ 62), CreatePeer "b" (2 ^ 62),
      CreatePeer "c" (2 ^ 62), CreatePeer "d" 0]) 1).currentSum = 0 ∧
    ((afterGets (CreatePool [CreatePeer "a" (2 ^ 62), CreatePeer "b" (2 ^ 62),
      CreatePeer "c" (2 ^ 62), CreatePeer "d" 0]) 1).Get.2).currentSum = -(2 ^ 64) := by
  refine ⟨by decide, by decide⟩

/-- C19, as the code has it. Periodicity of the weighted selection state: in
the fresh pool of `CreatePeer` peers with weights `>= 0` of sum `S > 0`, if no
addition or subtraction of the sequential `Get` calls overflows the Go `int`
(as is the case whenever `n * S` is at most `math.MaxInt64`), then after
exactly `S` sequential `Get` calls the pool is back in its first state, every
`current_weight` being `0` again, and after every `Get` each peer's
`current_weight` is strictly greater than `-S`. -/
theorem Get_periodic (specs : List (String × Int))
    (hw : ∀ s ∈ specs, 0 ≤ s.2) (hS : 0 < (specs.map Prod.snd).sum) :
    ((specs.length : Int) * (specs.map Prod.snd).sum ≤ maxInt →
      NeverOverflows (CreatePool (specs.map (fun s => CreatePeer s.1 s.2)))) ∧
    (NeverOverflows (CreatePool (specs.map (fun s => CreatePeer s.1 s.2))) →
      afterGets (CreatePool (specs.map (fun s => CreatePeer s.1 s.2)))
          (specs.map Prod.snd).sum.toNat
        = CreatePool (specs.map (fun s => CreatePeer s.1 s.2)) ∧
      (∀ x ∈ (afterGets (CreatePool (specs.map (fun s => CreatePeer s.1 s.2)))
          (specs.map Prod.snd).sum.toNat).peers, x.current_weight = 0) ∧
      (∀ (k : Nat), ∀ x ∈ (afterGets (CreatePool (specs.map (fun s => CreatePeer s.1 s.2)))
          (k + 1)).peers, -(specs.map Prod.snd).sum < x.current_weight)) := by
  have hf := Fresh_CreatePool specs hw
  have hS1 : 0 < (CreatePool (specs.map (fun s => CreatePeer s.1 s.2))).weightSum := by
    rw [weightSum_CreatePool]; exact hS
  refine ⟨fun hB => neverOverflows_of_bounded hf hS1 (Bounded_CreatePool specs hB), ?_⟩
  intro hno
  have hper := afterGets_period hf hS1 hno
  rw [weightSum_CreatePool] at hper
  refine ⟨hper, ?_, ?_⟩
  · intro x hx
    rw [hper] at hx
    exact (hf x hx).2.1
  · intro k x hx
    obtain ⟨i, hi⟩ := List.mem_iff_getElem?.mp hx
    have h := (RunInv.all hf hS1 hno (k + 1)).lower i x hi
    rw [weightSum_CreatePool] at h
    exact h

/-- Witness of C19: the weights `5, 1, 1`. -/
theorem Get_periodic_witness :
    afterGets (CreatePool ([("a", 5), ("b", 1), ("c", 1)].map
        (fun s => CreatePeer s.1 s.2)))
        (([("a", 5), ("b", 1), ("c", 1)] : List (String × Int)).map Prod.snd).sum.toNat
      = CreatePool ([("a", 5), ("b", 1), ("c", 1)].map (fun s => CreatePeer s.1 s.2)) :=
  ((Get_periodic [("a", 5), ("b", 1), ("c", 1)] (by decide) (by decide)).2
    ((Get_periodic [("a", 5), ("b", 1), ("c", 1)] (by decide) (by decide)).1
      (by decide))).1

/-- Counterexample to C19 as stated: with the two weights `math.MaxInt64` the
pool after `S = 2 * MaxInt64` sequential `Get` calls holds the accumulators
`2` and `-2`, not `0` and `0`. -/
theorem Get_periodic_counterexample :
    afterGets (CreatePool ([("a", maxInt), ("b", maxInt)].map
        (fun s => CreatePeer s.1 s.2)))
        (([("a", maxInt), ("b", maxInt)] : List (String × Int)).map Prod.snd).sum.toNat
      = ⟨[⟨"a", maxInt, maxInt, 2⟩, ⟨"b", maxInt, maxInt, -2⟩], 0⟩ ∧
    (⟨[⟨"a", maxInt, maxInt, 2⟩, ⟨"b", maxInt, maxInt, -2⟩], 0⟩ : Pool)
      ≠ CreatePool ([("a", maxInt), ("b", maxInt)].map (fun s => CreatePeer s.1 s.2)) := by
  have hp : CreatePool ([("a", maxInt), ("b", maxInt)].map (fun s => CreatePeer s.1 s.2))
      = overflowPool := rfl
  have hS : (([("a", maxInt), ("b", maxInt)] : List (String × Int)).map Prod.snd).sum.toNat
      = 2 * 9223372036854775806 + 2 := by decide
  rw [hp, hS]
  exact ⟨(overflowPool_run 9223372036854775806).2, by decide⟩

theorem sum_pos_of_mem_pos (l : List Int) (h : ∀ x ∈ l, 0 ≤ x) (hp : ∃ x ∈ l, 0 < x) :
    0 < l.sum := by
  induction l with
  | nil => obtain ⟨x, hx, _⟩ := hp; cases hx
  | cons a l ih =>
    have ha := h a (List.mem_cons_self _ _)
    have hl : ∀ x ∈ l, 0 ≤ x := fun x hx => h x (List.mem_cons_of_mem _ hx)
    have hs : 0 ≤ l.sum := List.sum_nonneg hl
    rw [List.sum_cons]
    obtain ⟨x, hx, hx0⟩ := hp
    rcases List.mem_cons.mp hx with rfl | hx
    · omega
    · have := ih hl ⟨x, hx, hx0⟩
      omega

theorem zero_weight_not_selected {p0 : Pool} (hf : Fresh p0) (hS : 0 < p0.weightSum)
    (hno : NeverOverflows p0) (i : Nat) (x0 : Peer) (hx0 : p0.peers[i]? = some x0) (hw0 : x0.weight = 0) (k : Nat) :
    nthGet p0 k ≠ some i := by
  intro hsel
  have h := RunInv.all hf hS hno (k + 1)
  have hq := h.peers_eq i
  rw [hx0] at hq
  simp only [Option.map_some'] at hq
  have hl := h.lower i _ hq
  simp only [Peer.at, hw0, mul_zero, zero_sub] at hl
  rw [selCount_succ, hsel, if_pos rfl] at hl
  have h1 : p0.weightSum * ((selCount p0 k i : Int) + 1)
      = p0.weightSum * (selCount p0 k i : Int) + p0.weightSum := by ring
  have h2 : 0 ≤ p0.weightSum * (selCount p0 k i : Int) :=
    mul_nonneg hS.le (Int.ofNat_nonneg _)
  push_cast at hl
  omega

/-- C20, as the code has it. A zero-weight peer is never selected while
another peer can be: in the fresh pool of `CreatePeer` peers with weights
`>= 0` of which at least one is positive, if no addition or subtraction of
the sequential `Get` calls overflows the Go `int` (as is the case whenever the
number of peers times the sum of the weights is at most `math.MaxInt64`), no
sequential `Get` call returns a position whose weight is `0`; whereas in a
non-empty fresh pool whose weights are all `0` every `Get` returns the first
peer. -/
theorem zero_weight_never_selected (specs : List (String × Int)) :
    ((∀ s ∈ specs, 0 ≤ s.2) → (∃ s ∈ specs, 0 < s.2) →
      ((specs.length : Int) * (specs.map Prod.snd).sum ≤ maxInt →
        NeverOverflows (CreatePool (specs.map (fun s => CreatePeer s.1 s.2)))) ∧
      (NeverOverflows (CreatePool (specs.map (fun s => CreatePeer s.1 s.2))) →
        ∀ (k i : Nat) (hi : i < specs.length), specs[i].2 = 0 →
          nthGet (CreatePool (specs.map (fun s => CreatePeer s.1 s.2))) k ≠ some i)) ∧
    (specs ≠ [] → (∀ s ∈ specs, s.2 = 0) →
      ∀ k : Nat, nthGet (CreatePool (specs.map (fun s => CreatePeer s.1 s.2))) k = some 0) := by
  constructor
  · intro hw hpos
    have hf := Fresh_CreatePool specs hw
    have hS : 0 < (CreatePool (specs.map (fun s => CreatePeer s.1 s.2))).weightSum := by
      rw [weightSum_CreatePool]
      apply sum_pos_of_mem_pos
      · intro x hx
        obtain ⟨s, hs, rfl⟩ := List.mem_map.mp hx
        exact hw s hs
      · obtain ⟨s, hs, hs0⟩ := hpos
        exact ⟨s.2, List.mem_map.mpr ⟨s, hs, rfl⟩, hs0⟩
    refine ⟨fun hB => neverOverflows_of_bounded hf hS (Bounded_CreatePool specs hB), ?_⟩
    intro hno k i hi hzero
    have hx0 : (CreatePool (specs.map (fun s => CreatePeer s.1 s.2))).peers[i]?
        = some (CreatePeer specs[i].1 specs[i].2) := by
      simp [CreatePool, List.getElem?_map, List.getElem?_eq_getElem hi]
    exact zero_weight_not_selected hf hS hno i _ hx0 hzero k
  · intro hne hzero k
    have hne1 : (CreatePool (specs.map (fun s => CreatePeer s.1 s.2))).peers ≠ [] := by
      simp [CreatePool, hne]
    have hall : ∀ x ∈ (CreatePool (specs.map (fun s => CreatePeer s.1 s.2))).peers,
        x.weight = 0 ∧ x.effective_weight = 0 ∧ x.current_weight = 0 := by
      intro x hx
      obtain ⟨s, hs, rfl⟩ := List.mem_map.mp hx
      exact ⟨hzero s hs, hzero s hs, rfl⟩
    unfold nthGet
    rw [afterGets_all_zero _ hne1 hall k, Get_all_zero _ hne1 hall]

/-- Witness of C20: weights `0, 2, 0`, the call number `5` and the peer at
position `2`. -/
theorem zero_weight_never_selected_witness :
    nthGet (CreatePool ([("a", 0), ("b", 2), ("c", 0)].map
      (fun s => CreatePeer s.1 s.2))) 5 ≠ some 2 :=
  ((zero_weight_never_selected [("a", 0), ("b", 2), ("c", 0)]).1 (by decide)
      (by decide)).2
    (((zero_weight_never_selected [("a", 0), ("b", 2), ("c", 0)]).1 (by decide)
      (by decide)).1 (by decide))
    5 2 (by decide) (by decide)

/-- Counterexample to C20 as stated: in the fresh pool of weights `2^62, 2^62,
2^62, 0` the second `Get` call returns the peer at position `3`, whose weight
is `0`. -/
theorem zero_weight_never_selected_counterexample :
    nthGet (CreatePool ([("a", 2 ^ 62), ("b", 2 ^ 62), ("c", 2 ^ 62), ("d", 0)].map
      (fun s => CreatePeer s.1 s.2))) 1 = some 3 ∧
    ((([("a", 2 ^ 62), ("b", 2 ^ 62), ("c", 2 ^ 62), ("d", 0)] : List (String × Int)).map
      Prod.snd)[3]? = some 0) := by
  refine ⟨by decide, by decide⟩

end roundrobin

namespace config

theorem checkPool_none_iff (l : List Server) (pset : List String) :
    checkPool l pset = none ↔
      (l.map Server.Address).Nodup ∧ ∀ a ∈ l.map Server.Address, a ∉ pset := by
  induction l generalizing pset with
  | nil => simp [checkPool]
  | cons p rest ih =>
    unfold checkPool
    by_cases hp : p.Address ∈ pset
    · rw [if_pos hp]
      simp only [List.map_cons, List.mem_cons, forall_eq_or_imp]
      constructor
      · intro h; cases h
      · rintro ⟨_, h, _⟩; exact absurd hp h
    · rw [if_neg hp, ih]
      simp only [List.map_cons, List.nodup_cons, List.mem_cons, forall_eq_or_imp]
      constructor
      · rintro ⟨hnd, hdis⟩
        refine ⟨⟨?_, hnd⟩, hp, ?_⟩
        · intro hmem
          exact hdis _ hmem (Or.inl rfl)
        · intro a ha hin
          exact hdis a ha (Or.inr hin)
      · rintro ⟨⟨hnot, hnd⟩, _, hdis⟩
        refine ⟨hnd, ?_⟩
        intro a ha hin
        rcases hin with rfl | hin
        · exact hnot ha
        · exact hdis a ha hin

theorem checkPool_error (l : List Server) (pset : List String) (e : Error)
    (h : checkPool l pset = some e) : e = Error.ErrPoolMemberDuplicated := by
  induction l generalizing pset with
  | nil => simp [checkPool] at h
  | cons p rest ih =>
    unfold checkPool at h
    by_cases hp : p.Address ∈ pset
    · rw [if_pos hp] at h
      exact (Option.some.inj h).symm
    · rw [if_neg hp] at h
      exact ih _ h

theorem nodup_of_length_le_one (l : List String) (h : ¬ l.length > 1) : l.Nodup := by
  rcases l with _ | ⟨a, _ | ⟨b, t⟩⟩
  · simp
  · simp
  · simp at h

theorem checkLoop_none_iff (l : List VirtualServer) (set : List String) :
    checkLoop l set = none ↔
      (∀ vs ∈ l, vs.Name ≠ "" ∧ vs.Address ≠ "") ∧
      ((l.map VirtualServer.Name).Nodup ∧ ∀ n ∈ l.map VirtualServer.Name, n ∉ set) ∧
      (∀ vs ∈ l, (vs.Pool.map Server.Address).Nodup) := by
  induction l generalizing set with
  | nil => simp [checkLoop]
  | cons vs rest ih =>
    unfold checkLoop
    simp only [List.map_cons, List.nodup_cons, List.mem_cons, forall_eq_or_imp]
    by_cases hn : vs.Name = ""
    · rw [if_pos hn]
      constructor
      · intro h; cases h
      · rintro ⟨⟨⟨h, _⟩, _⟩, _⟩; exact absurd hn h
    rw [if_neg hn]
    by_cases ha : vs.Address = ""
    · rw [if_pos ha]
      constructor
      · intro h; cases h
      · rintro ⟨⟨⟨_, h⟩, _⟩, _⟩; exact absurd ha h
    rw [if_neg ha]
    by_cases hs : vs.Name ∈ set
    · rw [if_pos hs]
      constructor
      · intro h; cases h
      · rintro ⟨_, ⟨_, h, _⟩, _⟩; exact absurd hs h
    rw [if_neg hs]
    have hrest : checkLoop rest (vs.Name :: set) = none ↔
        (∀ v ∈ rest, v.Name ≠ "" ∧ v.Address ≠ "") ∧
        ((vs.Name ∉ rest.map VirtualServer.Name ∧ (rest.map VirtualServer.Name).Nodup) ∧
          ∀ n ∈ rest.map VirtualServer.Name, n ∉ set) ∧
        (∀ v ∈ rest, (v.Pool.map Server.Address).Nodup) := by
      rw [ih]
      simp only [List.mem_cons, not_or]
      constructor
      · rintro ⟨h1, ⟨h2, h3⟩, h4⟩
        exact ⟨h1, ⟨⟨fun hm => (h3 _ hm).1 rfl, h2⟩, fun n hn => (h3 n hn).2⟩, h4⟩
      · rintro ⟨h1, ⟨⟨h2, h3⟩, h4⟩, h5⟩
        refine ⟨h1, ⟨h3, fun n hn => ⟨?_, h4 n hn⟩⟩, h5⟩
        intro hnv
        exact h2 (hnv ▸ hn)
    by_cases hlen : vs.Pool.length > 1
    · rw [if_pos hlen]
      rcases hcp : checkPool vs.Pool [] with _ | e
      · have hnd := ((checkPool_none_iff vs.Pool []).mp hcp).1
        simp only [hrest]
        constructor
        · rintro ⟨h1, ⟨⟨h2, h3⟩, h4⟩, h5⟩
          exact ⟨⟨⟨hn, ha⟩, h1⟩, ⟨⟨h2, h3⟩, hs, h4⟩, hnd, h5⟩
        · rintro ⟨⟨_, h1⟩, ⟨⟨h2, h3⟩, _, h4⟩, _, h5⟩
          exact ⟨h1, ⟨⟨h2, h3⟩, h4⟩, h5⟩
      · simp only
        constructor
        · intro h; cases h
        · rintro ⟨_, _, hnd, _⟩
          have := (checkPool_none_iff vs.Pool []).mpr ⟨hnd, by simp⟩
          rw [hcp] at this
          cases this
    · rw [if_neg hlen, hrest]
      have hnd : (vs.Pool.map Server.Address).Nodup :=
        nodup_of_length_le_one _ (by simpa using hlen)
      constructor
      · rintro ⟨h1, ⟨⟨h2, h3⟩, h4⟩, h5⟩
        exact ⟨⟨⟨hn, ha⟩, h1⟩, ⟨⟨h2, h3⟩, hs, h4⟩, hnd, h5⟩
      · rintro ⟨⟨_, h1⟩, ⟨⟨h2, h3⟩, _, h4⟩, _, h5⟩
        exact ⟨h1, ⟨⟨h2, h3⟩, h4⟩, h5⟩

/-- What each named error of `check` stands for, for the loop started with the
names `set` already seen. -/
theorem checkLoop_error (l : List VirtualServer) (set : List String) (e : Error)
    (h : checkLoop l set = some e) :
    (e = Error.ErrVirtualServerNameEmpty → ∃ vs ∈ l, vs.Name = "") ∧
    (e = Error.ErrVirtualServerAddressEmpty → ∃ vs ∈ l, vs.Address = "") ∧
    (e = Error.ErrVirtualServerDuplicated →
      ¬ ((l.map VirtualServer.Name).Nodup ∧ ∀ n ∈ l.map VirtualServer.Name, n ∉ set)) ∧
    (e = Error.ErrPoolMemberDuplicated →
      ∃ vs ∈ l, ¬ (vs.Pool.map Server.Address).Nodup) := by
  induction l generalizing set with
  | nil => simp [checkLoop] at h
  | cons vs rest ih =>
    unfold checkLoop at h
    have lift : checkLoop rest (vs.Name :: set) = some e →
        (e = Error.ErrVirtualServerNameEmpty → ∃ v ∈ vs :: rest, v.Name = "") ∧
        (e = Error.ErrVirtualServerAddressEmpty → ∃ v ∈ vs :: rest, v.Address = "") ∧
        (e = Error.ErrVirtualServerDuplicated →
          ¬ (((vs :: rest).map VirtualServer.Name).Nodup ∧
            ∀ n ∈ (vs :: rest).map VirtualServer.Name, n ∉ set)) ∧
        (e = Error.ErrPoolMemberDuplicated →
          ∃ v ∈ vs :: rest, ¬ (v.Pool.map Server.Address).Nodup) := by
      intro hr
      obtain ⟨h1, h2, h3, h4⟩ := ih _ hr
      refine ⟨?_, ?_, ?_, ?_⟩
      · intro he
        obtain ⟨v, hv, hvn⟩ := h1 he
        exact ⟨v, List.mem_cons_of_mem _ hv, hvn⟩
      · intro he
        obtain ⟨v, hv, hvn⟩ := h2 he
        exact ⟨v, List.mem_cons_of_mem _ hv, hvn⟩
      · intro he hall
        apply h3 he
        simp only [List.map_cons, List.nodup_cons, List.mem_cons, forall_eq_or_imp] at hall
        obtain ⟨⟨hnot, hnd⟩, _, hdis⟩ := hall
        refine ⟨hnd, ?_⟩
        intro n hn hin
        rcases List.mem_cons.mp hin with rfl | hin
        · exact hnot hn
        · exact hdis n hn hin
      · intro he
        obtain ⟨v, hv, hvn⟩ := h4 he
        exact ⟨v, List.mem_cons_of_mem _ hv, hvn⟩
    by_cases hn : vs.Name = ""
    · rw [if_pos hn] at h
      have he := (Option.some.inj h).symm
      subst he
      refine ⟨fun _ => ⟨vs, List.mem_cons_self _ _, hn⟩, ?_, ?_, ?_⟩ <;> intro hc <;> cases hc
    rw [if_neg hn] at h
    by_cases ha : vs.Address = ""
    · rw [if_pos ha] at h
      have he := (Option.some.inj h).symm
      subst he
      refine ⟨?_, fun _ => ⟨vs, List.mem_cons_self _ _, ha⟩, ?_, ?_⟩ <;> intro hc <;> cases hc
    rw [if_neg ha] at h
    by_cases hs : vs.Name ∈ set
    · rw [if_pos hs] at h
      have he := (Option.some.inj h).symm
      subst he
      refine ⟨?_, ?_, ?_, ?_⟩
      · intro hc; cases hc
      · intro hc; cases hc
      · intro _ hall
        exact hall.2 vs.Name (by simp) hs
      · intro hc; cases hc
    rw [if_neg hs] at h
    by_cases hlen : vs.Pool.length > 1
    · rw [if_pos hlen] at h
      rcases hcp : checkPool vs.Pool [] with _ | e1
      · rw [hcp] at h
        exact lift h
      · rw [hcp] at h
        have he : e1 = e := Option.some.inj h
        subst he
        have hk := checkPool_error vs.Pool [] e1 hcp
        subst hk
        refine ⟨?_, ?_, ?_, ?_⟩
        · intro hc; cases hc
        · intro hc; cases hc
        · intro hc; cases hc
        · intro _
          refine ⟨vs, List.mem_cons_self _ _, ?_⟩
          intro hnd
          have := (checkPool_none_iff vs.Pool []).mpr ⟨hnd, by simp⟩
          rw [hcp] at this
          cases this
    · rw [if_neg hlen] at h
      exact lift h

/-- C8. Configuration validation is exact: `check` returns no error exactly
when every virtual server has a non-empty name and a non-empty address, the
names are pairwise distinct, and the member addresses of every pool are
pairwise distinct; and each named error is returned only for its own failure:
`ErrVirtualServerNameEmpty` for an empty name, `ErrVirtualServerAddressEmpty`
for an empty address, `ErrVirtualServerDuplicated` for a repeated name,
`ErrPoolMemberDuplicated` for a repeated member address. -/
theorem check_exact (c : Configuration) :
    (c.check = none ↔ c.Valid) ∧
    (c.check = some Error.ErrVirtualServerNameEmpty → ∃ vs ∈ c.VServers, vs.Name = "") ∧
    (c.check = some Error.ErrVirtualServerAddressEmpty →
      ∃ vs ∈ c.VServers, vs.Address = "") ∧
    (c.check = some Error.ErrVirtualServerDuplicated →
      ¬ (c.VServers.map VirtualServer.Name).Nodup) ∧
    (c.check = some Error.ErrPoolMemberDuplicated →
      ∃ vs ∈ c.VServers, ¬ (vs.Pool.map Server.Address).Nodup) := by
  refine ⟨?_, ?_, ?_, ?_, ?_⟩
  · unfold Configuration.check Configuration.Valid
    rw [checkLoop_none_iff]
    simp
  · intro h
    exact (checkLoop_error c.VServers [] _ h).1 rfl
  · intro h
    exact (checkLoop_error c.VServers [] _ h).2.1 rfl
  · intro h hnd
    exact (checkLoop_error c.VServers [] _ h).2.2.1 rfl ⟨hnd, by simp⟩
  · intro h
    exact (checkLoop_error c.VServers [] _ h).2.2.2 rfl

/-- Witness of C8: one virtual server whose pool lists the address `x` twice. -/
theorem check_exact_witness :
    ∃ vs ∈ (⟨⟨"", "", "", "", "", ""⟩, ⟨"", ⟨"", ""⟩⟩,
        [⟨"web", ":80", "", "", "", "", "", [⟨"x", 1⟩, ⟨"x", 2⟩]⟩]⟩ : Configuration).VServers,
      ¬ (vs.Pool.map Server.Address).Nodup :=
  (check_exact ⟨⟨"", "", "", "", "", ""⟩, ⟨"", ⟨"", ""⟩⟩,
    [⟨"web", ":80", "", "", "", "", "", [⟨"x", 1⟩, ⟨"x", 2⟩]⟩]⟩).2.2.2.2 (by decide)

end config

namespace balancer

theorem applyOptions_append_error (pre post : List VirtualServerOption)
    (opt : VirtualServerOption) (hopt : ∀ vs, ∃ e, opt vs = .error e) (vs : VirtualServer) :
    ∃ e, applyOptions (pre ++ opt :: post) vs = .error e := by
  induction pre generalizing vs with
  | nil =>
    obtain ⟨e, he⟩ := hopt vs
    exact ⟨e, by simp [applyOptions, he]⟩
  | cons o pre ih =>
    rw [List.cons_append]
    unfold applyOptions
    rcases ho : o vs with e | vs1
    · exact ⟨e, rfl⟩
    · exact ih vs1

theorem LBMethodOpt_unsupported (m : String) (h1 : m ≠ LB_ROUNDROBIN)
    (h2 : m ≠ LB_COSISTENTHASH) (vs : VirtualServer) :
    LBMethodOpt m vs = .error Error.ErrNotSupportedMethod := by
  unfold LBMethodOpt
  rw [if_pos ⟨h1, h2⟩]

theorem PoolOpt_unsupported (m : String) (h0 : m ≠ "") (h1 : m ≠ LB_ROUNDROBIN)
    (h2 : m ≠ LB_COSISTENTHASH) (peers : List config.Server) (vs : VirtualServer) :
    PoolOpt m peers vs = .error Error.ErrNotSupportedMethod := by
  unfold PoolOpt
  simp only [if_neg h0, if_neg h1, if_neg h2]

/-- C9, as the code has it. Construction fail-fast: for every method string
`m` other than `round-robin`, `consistent-hash` and the empty string, both
`LBMethodOpt(m)` and `PoolOpt(m, peers)` return `ErrNotSupportedMethod`, and
`NewVirtualServer` yields no virtual server for any option list that holds
one of them (with the library's setters in the usual order it ends with
`ErrNotSupportedMethod`); for `m` one of the two tags both setters succeed;
and `PoolOpt` accepts the empty string, building the round-robin pool. -/
theorem construction_fail_fast (m : String) (peers : List config.Server)
    (vs : VirtualServer) :
    (m ≠ "" → m ≠ LB_ROUNDROBIN → m ≠ LB_COSISTENTHASH →
      LBMethodOpt m vs = .error Error.ErrNotSupportedMethod ∧
      PoolOpt m peers vs = .error Error.ErrNotSupportedMethod ∧
      (∀ pre post : List VirtualServerOption,
        (∃ e, NewVirtualServer (pre ++ LBMethodOpt m :: post) = .error e) ∧
        (∃ e, NewVirtualServer (pre ++ PoolOpt m peers :: post) = .error e)) ∧
      (∀ name addr serverName proto : String,
        NewVirtualServer [NameOpt name, AddressOpt addr, ServerNameOpt serverName,
          ProtocolOpt proto, LBMethodOpt m, PoolOpt m peers]
          = .error Error.ErrNotSupportedMethod)) ∧
    (m = LB_ROUNDROBIN ∨ m = LB_COSISTENTHASH →
      LBMethodOpt m vs = .ok { vs with LBMethod := m } ∧
      ∃ pool : Pooler, PoolOpt m peers vs = .ok { vs with Pool := some pool }) ∧
    PoolOpt "" peers vs = .ok { vs with Pool := some (Pooler.roundrobin (poolPairs peers)) }
    := by
  refine ⟨?_, ?_, ?_⟩
  · intro h0 h1 h2
    refine ⟨LBMethodOpt_unsupported m h1 h2 vs, PoolOpt_unsupported m h0 h1 h2 peers vs,
      ?_, ?_⟩
    · intro pre post
      exact ⟨applyOptions_append_error pre post _
          (fun v => ⟨_, LBMethodOpt_unsupported m h1 h2 v⟩) _,
        applyOptions_append_error pre post _
          (fun v => ⟨_, PoolOpt_unsupported m h0 h1 h2 peers v⟩) _⟩
    · intro name addr serverName proto
      simp [NewVirtualServer, applyOptions, NameOpt, AddressOpt, ServerNameOpt, ProtocolOpt,
        LBMethodOpt_unsupported m h1 h2]
  · rintro (rfl | rfl)
    · refine ⟨by simp [LBMethodOpt], ⟨Pooler.roundrobin (poolPairs peers), ?_⟩⟩
      simp [PoolOpt, LB_ROUNDROBIN]
    · refine ⟨by simp [LBMethodOpt],
        ⟨Pooler.chash (peers.map config.Server.Address), ?_⟩⟩
      simp [PoolOpt, LB_ROUNDROBIN, LB_COSISTENTHASH]
  · simp [PoolOpt]

/-- Witness of C9: the method string `least-conn`. -/
theorem construction_fail_fast_witness :
    LBMethodOpt "least-conn" emptyVirtualServer = .error Error.ErrNotSupportedMethod ∧
    PoolOpt "least-conn" [⟨"10.0.0.1:80", 1⟩] emptyVirtualServer
      = .error Error.ErrNotSupportedMethod :=
  ⟨((construction_fail_fast "least-conn" [⟨"10.0.0.1:80", 1⟩] emptyVirtualServer).1
      (by decide) (by decide) (by decide)).1,
    ((construction_fail_fast "least-conn" [⟨"10.0.0.1:80", 1⟩] emptyVirtualServer).1
      (by decide) (by decide) (by decide)).2.1⟩

/-- Counterexample to C9 as stated: the empty string is outside
`round-robin`, `consistent-hash`, yet construction through `PoolOpt` with it
succeeds. -/
theorem construction_fail_fast_counterexample :
    "" ≠ LB_ROUNDROBIN ∧ "" ≠ LB_COSISTENTHASH ∧
    NewVirtualServer [PoolOpt "" [⟨"10.0.0.1:80", 1⟩]]
      = .ok { emptyVirtualServer with
          Pool := some (Pooler.roundrobin [("10.0.0.1:80", 1)]) } := by
  refine ⟨by decide, by decide, ?_⟩
  rfl

/-- C10, what the code does: `LBMethodOpt` rejects the empty method string with
`ErrNotSupportedMethod`, so the usual construction with an empty LB method
yields no virtual server, although `PoolOpt` maps the empty string to the
round-robin pool. -/
theorem LBMethodOpt_empty_rejected (peers : List config.Server) (vs : VirtualServer)
    (name addr serverName proto : String) :
    LBMethodOpt "" vs = .error Error.ErrNotSupportedMethod ∧
    PoolOpt "" peers vs = .ok { vs with Pool := some (Pooler.roundrobin (poolPairs peers)) } ∧
    NewVirtualServer [NameOpt name, AddressOpt addr, ServerNameOpt serverName,
      ProtocolOpt proto, LBMethodOpt "", PoolOpt "" peers]
      = .error Error.ErrNotSupportedMethod := by
  have h := LBMethodOpt_unsupported "" (by decide) (by decide)
  refine ⟨h vs, by simp [PoolOpt], ?_⟩
  simp [NewVirtualServer, applyOptions, NameOpt, AddressOpt, ServerNameOpt, ProtocolOpt, h]

end balancer

namespace balancer

theorem applyOptions_append (pre post : List VirtualServerOption) (vs : VirtualServer) :
    applyOptions (pre ++ post) vs =
      match applyOptions pre vs with
      | .error e => .error e
      | .ok v => applyOptions post v := by
  induction pre generalizing vs with
  | nil => rfl
  | cons o pre ih =>
    rw [List.cons_append]
    show (match o vs with
      | .error err => Except.error err
      | .ok vs1 => applyOptions (pre ++ post) vs1) =
      match (match o vs with
        | .error err => Except.error err
        | .ok vs1 => applyOptions pre vs1) with
      | .error e => .error e
      | .ok v => applyOptions post v
    rcases o vs with e | v1
    · rfl
    · exact ih v1

theorem applyOptions_ok_iff (opts : List VirtualServerOption) (vs0 : VirtualServer) :
    (∃ v, applyOptions opts vs0 = .ok v) ↔
      ∀ (pre : List VirtualServerOption) (opt : VirtualServerOption)
        (post : List VirtualServerOption) (vs : VirtualServer),
        opts = pre ++ opt :: post → applyOptions pre vs0 = .ok vs → ∃ vs1, opt vs = .ok vs1 := by
  constructor
  · rintro ⟨v, hv⟩ pre opt post vs hopts hpre
    rw [hopts, applyOptions_append, hpre] at hv
    simp only [applyOptions] at hv
    rcases ho : opt vs with e | vs1
    · rw [ho] at hv; cases hv
    · exact ⟨vs1, rfl⟩
  · intro h
    induction opts generalizing vs0 with
    | nil => exact ⟨vs0, rfl⟩
    | cons o rest ih =>
      obtain ⟨v1, hv1⟩ := h [] o rest vs0 rfl rfl
      have hrest := ih v1 (by
        intro pre opt post vs hopts hpre
        apply h (o :: pre) opt post vs (by rw [hopts]; rfl)
        simp only [applyOptions, hv1]
        exact hpre)
      obtain ⟨v, hv⟩ := hrest
      exact ⟨v, by simp only [applyOptions, hv1]; exact hv⟩

/-- C11. Construction is all-or-nothing: `NewVirtualServer` yields a virtual
server exactly when every option, applied to the state the options before it
have built, returns no error; and when the options before `opt` succeed and
`opt` rejects with `e`, construction ends with exactly `e`, whatever options
follow (they are not applied), and yields no virtual server. -/
theorem construction_all_or_nothing (opts : List VirtualServerOption) :
    ((∃ v, NewVirtualServer opts = .ok v) ↔
      ∀ (pre : List VirtualServerOption) (opt : VirtualServerOption)
        (post : List VirtualServerOption) (vs : VirtualServer),
        opts = pre ++ opt :: post → applyOptions pre emptyVirtualServer = .ok vs →
        ∃ vs1, opt vs = .ok vs1) ∧
    (∀ (pre : List VirtualServerOption) (opt : VirtualServerOption)
        (post : List VirtualServerOption) (vs : VirtualServer) (e : Error),
        opts = pre ++ opt :: post → applyOptions pre emptyVirtualServer = .ok vs →
        opt vs = .error e →
        NewVirtualServer opts = .error e ∧
        (∀ v, NewVirtualServer opts ≠ .ok v) ∧
        ∀ post2 : List VirtualServerOption,
          NewVirtualServer (pre ++ opt :: post2) = .error e) := by
  refine ⟨applyOptions_ok_iff opts emptyVirtualServer, ?_⟩
  intro pre opt post vs e hopts hpre hopt
  have key : ∀ post2 : List VirtualServerOption,
      NewVirtualServer (pre ++ opt :: post2) = .error e := by
    intro post2
    unfold NewVirtualServer
    rw [applyOptions_append, hpre]
    simp only [applyOptions, hopt]
  refine ⟨by rw [hopts]; exact key post, ?_, key⟩
  intro v hv
  rw [hopts, key post] at hv
  cases hv

/-- Witness of C11: a name, then an unsupported LB method, then an address. -/
theorem construction_all_or_nothing_witness :
    NewVirtualServer [NameOpt "web", LBMethodOpt "least-conn", AddressOpt ":80"]
      = .error Error.ErrNotSupportedMethod :=
  ((construction_all_or_nothing
      [NameOpt "web", LBMethodOpt "least-conn", AddressOpt ":80"]).2
    [NameOpt "web"] (LBMethodOpt "least-conn") [AddressOpt ":80"]
    { emptyVirtualServer with Name := "web" } Error.ErrNotSupportedMethod rfl rfl rfl).1

end balancer

namespace balancer

/-- C12. Host mismatch in dispatch: for every state and every request whose
`Host` differs from `ServerName`, `ServeHTTP` writes `ErrHostNotMatch` and
leaves the whole state as it was (the pool is not asked, whatever `Get` would
return, and the proxy cache and the count of handlers are unchanged); for a
`Host` equal to `ServerName` the response is never `ErrHostNotMatch`. -/
theorem host_mismatch (env : Env) (d : Dispatch) (r : Request) :
    (r.Host ≠ d.vs.ServerName →
      ServeHTTP env d r = some (Response.error Error.ErrHostNotMatch, d)) ∧
    (r.Host = d.vs.ServerName →
      ∀ d1 : Dispatch, ServeHTTP env d r ≠ some (Response.error Error.ErrHostNotMatch, d1)) := by
  constructor
  · intro h
    unfold ServeHTTP
    rw [if_pos h]
  · intro h d1 hs
    unfold ServeHTTP at hs
    rw [if_neg (not_not.mpr h)] at hs
    rcases hp : d.vs.Pool with _ | pool
    · rw [hp] at hs; cases hs
    · rw [hp] at hs
      simp only at hs
      split at hs
      · cases hs
      · split at hs
        · cases hs
        · split at hs
          · cases hs
          · split at hs
            · cases hs
            · cases hs

/-- Witness of C12: server name `app.example.com`, request for
`other.example.com`. -/
theorem host_mismatch_witness :
    ServeHTTP ⟨fun p _ => ("10.0.0.1:80", p), fun u => some u⟩
      ⟨⟨"", "", "app.example.com", "", "", some (Pooler.chash ["10.0.0.1:80"]), []⟩, 0⟩
      ⟨"other.example.com", "192.0.2.7:5000"⟩
    = some (Response.error Error.ErrHostNotMatch,
      ⟨⟨"", "", "app.example.com", "", "", some (Pooler.chash ["10.0.0.1:80"]), []⟩, 0⟩) :=
  (host_mismatch ⟨fun p _ => ("10.0.0.1:80", p), fun u => some u⟩
    ⟨⟨"", "", "app.example.com", "", "", some (Pooler.chash ["10.0.0.1:80"]), []⟩, 0⟩
    ⟨"other.example.com", "192.0.2.7:5000"⟩).1 (by decide)

/-- C13. Empty selection in dispatch: when the `Host` matches and the pool
returns the empty address, `ServeHTTP` writes `ErrPeerNotFound`; the proxy
cache is unchanged, no handler is constructed, and no handler is invoked. -/
theorem empty_selection (env : Env) (d : Dispatch) (r : Request) (pool : Pooler)
    (hhost : r.Host = d.vs.ServerName) (hpool : d.vs.Pool = some pool)
    (hget : (env.poolGet pool r.RemoteAddr).1 = "") :
    ∃ d1 : Dispatch, ServeHTTP env d r = some (Response.error Error.ErrPeerNotFound, d1) ∧
      d1.vs.ReverseProxy = d.vs.ReverseProxy ∧ d1.created = d.created ∧
      d1.vs.Pool = some (env.poolGet pool r.RemoteAddr).2 ∧
      ∀ (rp : ReverseProxy) (d2 : Dispatch),
        ServeHTTP env d r ≠ some (Response.forwarded rp, d2) := by
  have hs : ServeHTTP env d r = some (Response.error Error.ErrPeerNotFound,
      { d with vs := { d.vs with Pool := some (env.poolGet pool r.RemoteAddr).2 } }) := by
    unfold ServeHTTP
    rw [if_neg (not_not.mpr hhost), hpool]
    simp only [hget, if_true]
  refine ⟨_, hs, rfl, rfl, rfl, ?_⟩
  intro rp d2 h
  rw [hs] at h
  cases h

/-- Witness of C13: a pool that selects no peer. -/
theorem empty_selection_witness :
    ∃ d1 : Dispatch,
      ServeHTTP ⟨fun p _ => ("", p), fun u => some u⟩
        ⟨⟨"", "", "app", "", "", some (Pooler.chash []), []⟩, 3⟩
        ⟨"app", "192.0.2.7:5000"⟩ = some (Response.error Error.ErrPeerNotFound, d1) ∧
      d1.vs.ReverseProxy = [] ∧ d1.created = 3 :=
  match empty_selection ⟨fun p _ => ("", p), fun u => some u⟩
    ⟨⟨"", "", "app", "", "", some (Pooler.chash []), []⟩, 3⟩
    ⟨"app", "192.0.2.7:5000"⟩ (Pooler.chash []) rfl rfl rfl with
  | ⟨d1, h1, h2, h3, _, _⟩ => ⟨d1, h1, h2, h3⟩

end balancer

namespace balancer

theorem cacheGet_filter_ne (m : List (String × ReverseProxy)) (k a : String) (h : a ≠ k) :
    cacheGet (m.filter (fun e => e.1 ≠ k)) a = cacheGet m a := by
  induction m with
  | nil => rfl
  | cons e m ih =>
    obtain ⟨k1, rp1⟩ := e
    by_cases hk : k1 = k
    · have hne : ¬ k1 = a := fun e => h (by rw [← e, hk])
      rw [List.filter_cons_of_neg (by simp [hk]), ih]
      simp only [cacheGet, if_neg hne]
    · rw [List.filter_cons_of_pos (by simp [hk])]
      simp only [cacheGet]
      by_cases ha : k1 = a
      · simp only [if_pos ha]
      · simp only [if_neg ha]
        exact ih

theorem cacheGet_cacheSet_same (m : List (String × ReverseProxy)) (k : String)
    (rp : ReverseProxy) : cacheGet (cacheSet m k rp) k = some rp := by
  simp [cacheSet, cacheGet]

theorem cacheGet_cacheSet_other (m : List (String × ReverseProxy)) (k a : String)
    (rp : ReverseProxy) (h : a ≠ k) : cacheGet (cacheSet m k rp) a = cacheGet m a := by
  have hne : ¬ k = a := fun e => h e.symm
  simp only [cacheSet, cacheGet, if_neg hne]
  exact cacheGet_filter_ne m k a h

/-- The two ways a `ServeHTTP` call can end: with the cache as it was, a
forwarded request being served by the handler found in the cache; or with one
new handler, stored under the selected address that had no entry. -/
theorem ServeHTTP_cases (env : Env) (d : Dispatch) (r : Request) (resp : Response)
    (d1 : Dispatch) (h : ServeHTTP env d r = some (resp, d1)) :
    (d1.vs.ReverseProxy = d.vs.ReverseProxy ∧ d1.created = d.created ∧
      d1.vs.ServerName = d.vs.ServerName ∧
      ∀ rp : ReverseProxy, resp = Response.forwarded rp →
        ∃ pool : Pooler, d.vs.Pool = some pool ∧
          cacheGet d.vs.ReverseProxy (env.poolGet pool r.RemoteAddr).1 = some rp) ∨
    (∃ (pool : Pooler) (target : String), d.vs.Pool = some pool ∧
      cacheGet d.vs.ReverseProxy (env.poolGet pool r.RemoteAddr).1 = none ∧
      resp = Response.forwarded ⟨target, d.created⟩ ∧
      d1.vs.ReverseProxy = cacheSet d.vs.ReverseProxy (env.poolGet pool r.RemoteAddr).1
        ⟨target, d.created⟩ ∧
      d1.created = d.created + 1 ∧ d1.vs.ServerName = d.vs.ServerName) := by
  unfold ServeHTTP at h
  by_cases hh : r.Host ≠ d.vs.ServerName
  · rw [if_pos hh] at h
    simp only [Option.some.injEq, Prod.mk.injEq] at h
    obtain ⟨h1, h2⟩ := h
    subst h1 h2
    left
    refine ⟨rfl, rfl, rfl, ?_⟩
    intro rp hrp
    cases hrp
  · rw [if_neg hh] at h
    rcases hp : d.vs.Pool with _ | pool
    · rw [hp] at h; cases h
    · rw [hp] at h
      simp only at h
      by_cases he : (env.poolGet pool r.RemoteAddr).1 = ""
      · rw [if_pos he] at h
        simp only [Option.some.injEq, Prod.mk.injEq] at h
        obtain ⟨h1, h2⟩ := h
        subst h1 h2
        left
        refine ⟨rfl, rfl, rfl, ?_⟩
        intro rp hrp
        cases hrp
      · rw [if_neg he] at h
        rcases hc : cacheGet d.vs.ReverseProxy (env.poolGet pool r.RemoteAddr).1 with _ | rp0
        · simp only [hc] at h
          rcases hu : env.urlParse ("http://" ++ (env.poolGet pool r.RemoteAddr).1)
            with _ | target
          · simp only [hu] at h
            simp only [Option.some.injEq, Prod.mk.injEq] at h
            obtain ⟨h1, h2⟩ := h
            subst h1 h2
            left
            refine ⟨rfl, rfl, rfl, ?_⟩
            intro rp hrp
            cases hrp
          · simp only [hu] at h
            simp only [Option.some.injEq, Prod.mk.injEq] at h
            obtain ⟨h1, h2⟩ := h
            subst h1 h2
            right
            exact ⟨pool, target, rfl, hc, rfl, rfl, rfl, rfl⟩
        · simp only [hc] at h
          simp only [Option.some.injEq, Prod.mk.injEq] at h
          obtain ⟨h1, h2⟩ := h
          subst h1 h2
          left
          refine ⟨rfl, rfl, rfl, ?_⟩
          intro rp hrp
          exact ⟨pool, rfl, by rw [hc]; cases hrp; rfl⟩

theorem ServeHTTP_keeps (env : Env) (d : Dispatch) (r : Request) (resp : Response)
    (d1 : Dispatch) (h : ServeHTTP env d r = some (resp, d1)) (a : String)
    (rp : ReverseProxy) (ha : cacheGet d.vs.ReverseProxy a = some rp) :
    cacheGet d1.vs.ReverseProxy a = some rp := by
  rcases ServeHTTP_cases env d r resp d1 h with ⟨hc, _⟩ | ⟨pool, target, _, hnone, _, hc, _⟩
  · rw [hc]; exact ha
  · rw [hc]
    by_cases hk : a = (env.poolGet pool r.RemoteAddr).1
    · rw [hk, hnone] at ha; cases ha
    · rw [cacheGet_cacheSet_other _ _ _ _ hk]; exact ha

theorem serveAll_keeps (env : Env) (rs : List Request) (d : Dispatch)
    (resps : List Response) (d1 : Dispatch) (h : serveAll env d rs = some (resps, d1))
    (a : String) (rp : ReverseProxy) (ha : cacheGet d.vs.ReverseProxy a = some rp) :
    cacheGet d1.vs.ReverseProxy a = some rp := by
  induction rs generalizing d resps with
  | nil =>
    simp only [serveAll, Option.some.injEq, Prod.mk.injEq] at h
    rw [← h.2]; exact ha
  | cons r rest ih =>
    unfold serveAll at h
    rcases hs : ServeHTTP env d r with _ | ⟨resp, d2⟩
    · rw [hs] at h; cases h
    · rw [hs] at h
      simp only at h
      rcases hr : serveAll env d2 rest with _ | ⟨resps2, d3⟩
      · rw [hr] at h; cases h
      · rw [hr] at h
        simp only [Option.some.injEq, Prod.mk.injEq] at h
        obtain ⟨_, h2⟩ := h
        subst h2
        exact ih d2 resps2 hr (ServeHTTP_keeps env d r resp d2 hs a rp ha)

theorem forwarded_ne_empty (env : Env) (d : Dispatch) (r : Request) (rp : ReverseProxy)
    (d1 : Dispatch) (h : ServeHTTP env d r = some (Response.forwarded rp, d1))
    (pool : Pooler) (hp : d.vs.Pool = some pool) :
    r.Host = d.vs.ServerName ∧ (env.poolGet pool r.RemoteAddr).1 ≠ "" := by
  unfold ServeHTTP at h
  by_cases hh : r.Host ≠ d.vs.ServerName
  · rw [if_pos hh] at h; cases h
  · rw [if_neg hh, hp] at h
    simp only at h
    refine ⟨not_not.mp hh, ?_⟩
    intro he
    rw [if_pos he] at h
    cases h

theorem ServeHTTP_hit (env : Env) (d : Dispatch) (r : Request) (pool : Pooler)
    (rp : ReverseProxy) (hh : r.Host = d.vs.ServerName) (hp : d.vs.Pool = some pool)
    (he : (env.poolGet pool r.RemoteAddr).1 ≠ "")
    (hc : cacheGet d.vs.ReverseProxy (env.poolGet pool r.RemoteAddr).1 = some rp) :
    ServeHTTP env d r = some (Response.forwarded rp,
      { d with vs := { d.vs with Pool := some (env.poolGet pool r.RemoteAddr).2 } }) := by
  unfold ServeHTTP
  rw [if_neg (not_not.mpr hh), hp]
  simp only [if_neg he, hc]

theorem ServeHTTP_stored (env : Env) (d : Dispatch) (r : Request) (rp : ReverseProxy)
    (d1 : Dispatch) (h : ServeHTTP env d r = some (Response.forwarded rp, d1))
    (p : String) (hp : routedTo env d r p) : cacheGet d1.vs.ReverseProxy p = some rp := by
  obtain ⟨pool, hpool, hpeer⟩ := hp
  rcases ServeHTTP_cases env d r _ d1 h with
    ⟨hc, _, _, hf⟩ | ⟨pool1, target, hpool1, _, hresp, hc, _⟩
  · obtain ⟨pool1, hpool1, hget⟩ := hf rp rfl
    rw [hpool] at hpool1
    cases hpool1
    rw [hc, ← hpeer]
    exact hget
  · rw [hpool] at hpool1
    cases hpool1
    rw [hc, ← hpeer]
    cases hresp
    exact cacheGet_cacheSet_same _ _ _

theorem serveAll_ServerName (env : Env) (rs : List Request) (d : Dispatch)
    (resps : List Response) (d1 : Dispatch) (h : serveAll env d rs = some (resps, d1)) :
    d1.vs.ServerName = d.vs.ServerName := by
  induction rs generalizing d resps with
  | nil =>
    simp only [serveAll, Option.some.injEq, Prod.mk.injEq] at h
    rw [← h.2]
  | cons r rest ih =>
    unfold serveAll at h
    rcases hs : ServeHTTP env d r with _ | ⟨resp, d2⟩
    · rw [hs] at h; cases h
    · rw [hs] at h
      simp only at h
      rcases hr : serveAll env d2 rest with _ | ⟨resps2, d3⟩
      · rw [hr] at h; cases h
      · rw [hr] at h
        simp only [Option.some.injEq, Prod.mk.injEq] at h
        obtain ⟨_, h2⟩ := h
        subst h2
        rw [ih d2 resps2 hr]
        rcases ServeHTTP_cases env d r resp d2 hs with ⟨_, _, hn, _⟩ | ⟨_, _, _, _, _, _, _, hn⟩
        · exact hn
        · exact hn

theorem CacheOK_step (env : Env) (d : Dispatch) (r : Request) (resp : Response)
    (d1 : Dispatch) (h : ServeHTTP env d r = some (resp, d1)) (hok : CacheOK d) :
    CacheOK d1 := by
  intro a rp ha
  rcases ServeHTTP_cases env d r resp d1 h with
    ⟨hc, hcr, _, _⟩ | ⟨pool, target, _, _, _, hc, hcr, _⟩
  · rw [hc] at ha
    rw [hcr]
    exact hok a rp ha
  · rw [hc] at ha
    rw [hcr]
    by_cases hk : a = (env.poolGet pool r.RemoteAddr).1
    · rw [hk, cacheGet_cacheSet_same] at ha
      cases ha
      exact Nat.lt_succ_self _
    · rw [cacheGet_cacheSet_other _ _ _ _ hk] at ha
      exact Nat.lt_succ_of_lt (hok a rp ha)

/-- C14. Proxy-handler reuse: over every sequence of `ServeHTTP` calls an entry
of the proxy cache is never replaced or removed; a forwarded request leaves the
cache holding, under the selected address, the handler that served it; a later
request with matching `Host` that the pool routes to the same address is
served by that same handler (same object) and constructs none; and a call
changes no entry other than the one of the address it selected, where a
handler constructed for an address without entry is a new object, different
from every handler already cached. -/
theorem proxy_handler_reuse (env : Env) :
    (∀ (d : Dispatch) (rs : List Request) (resps : List Response) (d1 : Dispatch),
      serveAll env d rs = some (resps, d1) →
      ∀ (a : String) (rp : ReverseProxy), cacheGet d.vs.ReverseProxy a = some rp →
        cacheGet d1.vs.ReverseProxy a = some rp) ∧
    (∀ (d : Dispatch) (r : Request) (rp : ReverseProxy) (d1 : Dispatch) (p : String),
      ServeHTTP env d r = some (Response.forwarded rp, d1) → routedTo env d r p →
      cacheGet d1.vs.ReverseProxy p = some rp) ∧
    (∀ (d : Dispatch) (r1 : Request) (rp1 : ReverseProxy) (d1 : Dispatch) (p : String)
      (rs : List Request) (resps : List Response) (d2 : Dispatch) (r2 : Request)
      (resp2 : Response) (d3 : Dispatch),
      ServeHTTP env d r1 = some (Response.forwarded rp1, d1) → routedTo env d r1 p →
      serveAll env d1 rs = some (resps, d2) →
      r2.Host = d2.vs.ServerName → routedTo env d2 r2 p →
      ServeHTTP env d2 r2 = some (resp2, d3) →
      resp2 = Response.forwarded rp1 ∧ d3.created = d2.created ∧
        d3.vs.ReverseProxy = d2.vs.ReverseProxy) ∧
    (∀ (d : Dispatch) (r : Request) (resp : Response) (d1 : Dispatch) (p : String),
      ServeHTTP env d r = some (resp, d1) → routedTo env d r p →
      (∀ a : String, a ≠ p → cacheGet d1.vs.ReverseProxy a = cacheGet d.vs.ReverseProxy a) ∧
      (cacheGet d.vs.ReverseProxy p = none → ∀ rp : ReverseProxy,
        resp = Response.forwarded rp →
        rp.id = d.created ∧ d1.created = d.created + 1 ∧
        (CacheOK d → ∀ (a : String) (rp0 : ReverseProxy),
          cacheGet d.vs.ReverseProxy a = some rp0 → rp0 ≠ rp))) ∧
    (∀ (d : Dispatch) (r : Request) (resp : Response) (d1 : Dispatch),
      ServeHTTP env d r = some (resp, d1) → CacheOK d → CacheOK d1) := by
  refine ⟨fun d rs resps d1 h a rp ha => serveAll_keeps env rs d resps d1 h a rp ha,
    fun d r rp d1 p h hp => ServeHTTP_stored env d r rp d1 h p hp, ?_, ?_,
    fun d r resp d1 h hok => CacheOK_step env d r resp d1 h hok⟩
  · intro d r1 rp1 d1 p rs resps d2 r2 resp2 d3 h1 hp1 hall hhost hp2 h2
    have hstored := ServeHTTP_stored env d r1 rp1 d1 h1 p hp1
    have hkept := serveAll_keeps env rs d1 resps d2 hall p rp1 hstored
    obtain ⟨pool1, hpool1, hpeer1⟩ := hp1
    have hne := (forwarded_ne_empty env d r1 rp1 d1 h1 pool1 hpool1).2
    rw [hpeer1] at hne
    obtain ⟨pool2, hpool2, hpeer2⟩ := hp2
    have hhit := ServeHTTP_hit env d2 r2 pool2 rp1 hhost hpool2 (by rw [hpeer2]; exact hne)
      (by rw [hpeer2]; exact hkept)
    rw [hhit] at h2
    simp only [Option.some.injEq, Prod.mk.injEq] at h2
    obtain ⟨h3, h4⟩ := h2
    subst h3 h4
    exact ⟨rfl, rfl, rfl⟩
  · intro d r resp d1 p h hp
    obtain ⟨pool, hpool, hpeer⟩ := hp
    rcases ServeHTTP_cases env d r resp d1 h with
      ⟨hc, hcr, _, hf⟩ | ⟨pool1, target, hpool1, _, hresp, hc, hcr, _⟩
    · refine ⟨fun a _ => by rw [hc], ?_⟩
      intro hnone rp hrp
      obtain ⟨pool1, hpool1, hget⟩ := hf rp hrp
      rw [hpool] at hpool1
      cases hpool1
      rw [hpeer, hnone] at hget
      cases hget
    · rw [hpool] at hpool1
      cases hpool1
      rw [hpeer] at hc
      refine ⟨fun a ha => by rw [hc, cacheGet_cacheSet_other _ _ _ _ ha], ?_⟩
      intro _ rp hrp
      rw [hresp] at hrp
      cases hrp
      refine ⟨rfl, hcr, ?_⟩
      intro hok a rp0 ha heq
      have := hok a rp0 ha
      rw [heq] at this
      exact Nat.lt_irrefl _ this

/-- Witness of C14: two requests of one client, routed to `10.0.0.1:80`, with
a request of another client in between. -/
theorem proxy_handler_reuse_witness :
    serveAll ⟨fun p k => (if k = "c1" then "10.0.0.1:80" else "10.0.0.2:80", p),
        fun u => some u⟩
      ⟨⟨"", "", "app", "", "", some (Pooler.chash []), []⟩, 0⟩
      [⟨"app", "c1"⟩, ⟨"app", "c2"⟩, ⟨"app", "c1"⟩]
      = some ([Response.forwarded ⟨"http://10.0.0.1:80", 0⟩,
          Response.forwarded ⟨"http://10.0.0.2:80", 1⟩,
          Response.forwarded ⟨"http://10.0.0.1:80", 0⟩],
        ⟨⟨"", "", "app", "", "", some (Pooler.chash []),
          [("10.0.0.2:80", ⟨"http://10.0.0.2:80", 1⟩),
            ("10.0.0.1:80", ⟨"http://10.0.0.1:80", 0⟩)]⟩, 2⟩) ∧
    cacheGet [("10.0.0.2:80", (⟨"http://10.0.0.2:80", 1⟩ : ReverseProxy)),
      ("10.0.0.1:80", ⟨"http://10.0.0.1:80", 0⟩)] "10.0.0.1:80"
      = some ⟨"http://10.0.0.1:80", 0⟩ :=
  ⟨by decide,
    (proxy_handler_reuse ⟨fun p k => (if k = "c1" then "10.0.0.1:80" else "10.0.0.2:80", p),
        fun u => some u⟩).1
      ⟨⟨"", "", "app", "", "", some (Pooler.chash []),
        [("10.0.0.1:80", ⟨"http://10.0.0.1:80", 0⟩)]⟩, 1⟩
      [⟨"app", "c2"⟩]
      [Response.forwarded ⟨"http://10.0.0.2:80", 1⟩]
      ⟨⟨"", "", "app", "", "", some (Pooler.chash []),
        [("10.0.0.2:80", ⟨"http://10.0.0.2:80", 1⟩),
          ("10.0.0.1:80", ⟨"http://10.0.0.1:80", 0⟩)]⟩, 2⟩
      (by decide) "10.0.0.1:80" ⟨"http://10.0.0.1:80", 0⟩ (by decide)⟩

end balancer
